import Mathlib

/-!
Verification of the feature-model analysis backend (src/fm-backend/server.py).

The development shallowly embeds the `FeatureModel` class: the feature tree
built by `parse_xml`, the CNF compiler `generate_rules_and_cnf`, the
minimal-valid-product enumerator `find_mwps` (with `is_valid_mwp` and
`filter_minimal_mwps`), and the selection validator `validate_selection`
(with `get_violation_messages`).  The external SAT engine (pysat Glucose3)
is out of the repository; it is modelled from the spec as a complete
reference solver enumerating bounded assignments.
-/


/-- A feature node as built by `parse_feature` in server.py: a dict with
keys name, mandatory, parent (name of the parent, absent for the root),
children, and group (None, "XOR" or "OR"). -/
inductive Feature where
  | node (name : String) (mandatory : Bool) (parent : Option String)
         (children : List Feature) (group : Option String)

def Feature.name : Feature → String
  | .node n _ _ _ _ => n

def Feature.mandatory : Feature → Bool
  | .node _ m _ _ _ => m

def Feature.parent : Feature → Option String
  | .node _ _ p _ _ => p

def Feature.children : Feature → List Feature
  | .node _ _ _ cs _ => cs

def Feature.group : Feature → Option String
  | .node _ _ _ _ g => g

/-- A cross-tree constraint entry as parsed by `parse_xml`: the free text
`englishStatement` and the inferred `type` field ("requires" or
"excludes"). -/
structure Constraint where
  englishStatement : String
  ctype : String

/-- The part of the `FeatureModel` state that is input to compilation:
`self.root` and `self.constraints`. -/
structure FModel where
  root : Feature
  constraints : List Constraint

mutual

/-- Pre-order list of all nodes of a feature tree (the order
`process_feature` visits them). -/
def subfeatures : Feature → List Feature
  | .node n m p cs g => Feature.node n m p cs g :: subfeaturesL cs

/-- Pre-order list of all nodes of a forest. -/
def subfeaturesL : List Feature → List Feature
  | [] => []
  | c :: cs => subfeatures c ++ subfeaturesL cs

end

/-- Character-list version of string prefix testing. -/
def isPrefChars : List Char → List Char → Bool
  | [], _ => true
  | _ :: _, [] => false
  | a :: as, b :: bs => a == b && isPrefChars as bs

/-- Character-list version of substring testing. -/
def hasSubChars (p : List Char) : List Char → Bool
  | [] => isPrefChars p []
  | b :: bs => isPrefChars p (b :: bs) || hasSubChars p bs

/-- Python's `p in t` substring test on strings. -/
def strContains (t p : String) : Bool := hasSubChars p.toList t.toList

/-- Compilation state: the Variable Registry (`self.var_map` together with
`self.next_var`; `self.reverse_map` is recovered by reverse lookup), the
clause set accumulated in `cnf`, and `self.logic_rules`. -/
structure CompState where
  varMap : List (String × Nat)
  nextVar : Nat
  clauses : List (List Int)
  rules : List String

/-- State at the start of `generate_rules_and_cnf` in a fresh session:
empty registry, `next_var = 1`, no clauses, rules reset to empty. -/
def initState : CompState := ⟨[], 1, [], []⟩

/-- `get_var`: look the name up, assigning the next free id on a miss. -/
def getVar (nm : String) (s : CompState) : Nat × CompState :=
  match s.varMap.find? (fun p => p.1 == nm) with
  | some p => (p.2, s)
  | none =>
      (s.nextVar,
       { s with varMap := s.varMap ++ [(nm, s.nextVar)], nextVar := s.nextVar + 1 })

/-- The id a name has in a compilation state (0 when unregistered);
`get_var` without the state change, for stating theorems. -/
def varIdx (s : CompState) (nm : String) : Nat :=
  ((s.varMap.find? (fun p => p.1 == nm)).map Prod.snd).getD 0

/-- `get_name`: reverse lookup of the registry. -/
def revName (s : CompState) (v : Nat) : Option String :=
  (s.varMap.find? (fun p => p.2 == v)).map Prod.fst

/-- The clauses `process_feature` emits for one parent/child edge:
two clauses `[-p, +f]` and `[-f, +p]` when the child is mandatory, the
single clause `[-f, +p]` otherwise. -/
def edgeClauses (mandatory : Bool) (pv v : Nat) : List (List Int) :=
  if mandatory then [[-(pv : Int), (v : Int)], [-(v : Int), (pv : Int)]]
  else [[-(v : Int), (pv : Int)]]

/-- The rule-log strings emitted alongside `edgeClauses`. -/
def edgeRules (mandatory : Bool) (pname nm : String) : List String :=
  if mandatory then [pname ++ " → " ++ nm, nm ++ " → " ++ pname]
  else [nm ++ " → " ++ pname]

/-- Python's `sep.join(names)`. -/
def joinSep (sep : String) : List String → String
  | [] => ""
  | [x] => x
  | x :: y :: xs => x ++ sep ++ joinSep sep (y :: xs)

/-- itertools.combinations(xs, 2), as ordered pairs in list order. -/
def pairsOf {α : Type} : List α → List (α × α)
  | [] => []
  | x :: xs => xs.map (fun y => (x, y)) ++ pairsOf xs

/-- Register the children's variables in order (the list comprehension
`[self.get_var(c["name"]) for c in children]`). -/
def childVars : List Feature → CompState → (List Nat × CompState)
  | [], s => ([], s)
  | c :: cs, s =>
      let r := getVar c.name s
      let rest := childVars cs r.2
      (r.1 :: rest.1, rest.2)

/-- The mutual-exclusion loop of XOR groups: for each pair, a rule and the
clause `[-get_var c1, -get_var c2]`. -/
def exclPairs : List (String × String) → CompState → CompState
  | [], s => s
  | (c1, c2) :: ps, s =>
      let s1 := { s with rules := s.rules ++ ["¬(" ++ c1 ++ " ∧ " ++ c2 ++ ")"] }
      let r1 := getVar c1 s1
      let r2 := getVar c2 r1.2
      exclPairs ps
        { r2.2 with clauses := r2.2.clauses ++ [[-(r1.1 : Int), -(r2.1 : Int)]] }

/-- Python's truthiness of the parent field: `feature["parent"]` is falsy
both when it is None and when it is the empty string (a parent feature
named ""). -/
def parentTruthy : Option String → Bool
  | none => false
  | some p => !(p == "")

/-- The `# Root` block of `process_feature`: `if not feature["parent"]:`
is a truthiness test, so a node whose parent field is None — or the empty
string — gets the unit clause of its own variable and the rule naming
it. -/
def rootStage (nm : String) (pr : Option String) (v : Nat) (s : CompState) : CompState :=
  if parentTruthy pr then s
  else { s with clauses := s.clauses ++ [[(v : Int)]], rules := s.rules ++ [nm] }

/-- The `# Parent-child relationships` block of `process_feature`:
`if feature["parent"]:` is again a truthiness test, so no edge clauses are
emitted when the parent field is None or the empty string. -/
def edgeStage (nm : String) (md : Bool) (pr : Option String) (v : Nat)
    (s : CompState) : CompState :=
  match pr with
  | none => s
  | some pname =>
      if pname == "" then s
      else
        let rp := getVar pname s
        { rp.2 with clauses := rp.2.clauses ++ edgeClauses md rp.1 v,
                    rules := rp.2.rules ++ edgeRules md pname nm }

/-- The `# XOR groups` / `# OR groups` blocks of `process_feature`. -/
def groupStage (nm : String) (gp : Option String) (cs : List Feature) (v : Nat)
    (s : CompState) : CompState :=
  if gp = some "XOR" then
    let rc := childVars cs s
    let cnames := cs.map Feature.name
    let s3b :=
      { rc.2 with
        rules := rc.2.rules ++ [nm ++ " → (" ++ joinSep " ∨ " cnames ++ ")"],
        clauses := rc.2.clauses ++ [(-(v : Int)) :: rc.1.map (fun (x : Nat) => (x : Int))] }
    exclPairs (pairsOf cnames) s3b
  else if gp = some "OR" then
    let cnames := cs.map Feature.name
    let rc := childVars cs s
    { rc.2 with
      rules := rc.2.rules ++ [nm ++ " → (" ++ joinSep " ∨ " cnames ++ ")"],
      clauses := rc.2.clauses ++ [(-(v : Int)) :: rc.1.map (fun (x : Nat) => (x : Int))] }
  else s

mutual

/-- `process_feature`: register the variable, then the root clause, the
parent/child edge, the group clauses, then recursion into the children,
threading the compilation state in the statement order of the Python
body. -/
def processFeature : Feature → CompState → CompState
  | .node nm md pr cs gp, s0 =>
      let r0 := getVar nm s0
      processFeatureL cs
        (groupStage nm gp cs r0.1 (edgeStage nm md pr r0.1 (rootStage nm pr r0.1 r0.2)))

/-- The trailing `for child in feature["children"]: process_feature(child)`. -/
def processFeatureL : List Feature → CompState → CompState
  | [], s => s
  | c :: cs, s => processFeatureL cs (processFeature c s)

end

/-- One iteration of the constraint loop at the end of
`generate_rules_and_cnf`: only a REQUIRES-typed constraint whose text
contains "filter" contributes, with the hard-coded clause
`[-get_var ByLocation, +get_var Location]`. -/
def processConstraint (c : Constraint) (s : CompState) : CompState :=
  if c.ctype == "requires" then
    if strContains c.englishStatement "filter" then
      let s1 := { s with rules := s.rules ++ ["Location → ByLocation"] }
      let rb := getVar "ByLocation" s1
      let rl := getVar "Location" rb.2
      { rl.2 with clauses := rl.2.clauses ++ [[-(rb.1 : Int), (rl.1 : Int)]] }
    else s
  else s

/-- The whole constraint loop. -/
def processConstraints : List Constraint → CompState → CompState
  | [], s => s
  | c :: cs, s => processConstraints cs (processConstraint c s)

/-- `generate_rules_and_cnf` for one fresh session: traverse the tree from
`self.root`, then process the cross-tree constraints. -/
def generate (m : FModel) : CompState :=
  processConstraints m.constraints (processFeature m.root initState)

/-- Example tree of §8 of the spec: root with mandatory child A, A an XOR
group over B and C. -/
def featB : Feature := .node "B" false (some "A") [] none

def featC : Feature := .node "C" false (some "A") [] none

def featA : Feature := .node "A" true (some "root") [featB, featC] (some "XOR")

def featRoot : Feature := .node "root" false none [featA] none

def exampleModel : FModel := ⟨featRoot, []⟩

/-- A literal of a clause is satisfied by an assignment of truth values to
variable ids: a positive literal asks its variable true, a negative one
asks it false. -/
def litSat (a : Nat → Bool) (lit : Int) : Prop :=
  if 0 < lit then a lit.natAbs = true else a lit.natAbs = false

/-- A clause (disjunction) is satisfied when some literal is. -/
def clSat (a : Nat → Bool) (cl : List Int) : Prop := ∃ lit ∈ cl, litSat a lit

/-- A clause set (conjunction) is satisfied when every clause is. -/
def cnfSat (a : Nat → Bool) (cls : List (List Int)) : Prop := ∀ cl ∈ cls, clSat a cl

/-- Satisfiability of a clause set. -/
def SatCnf (cls : List (List Int)) : Prop := ∃ a : Nat → Bool, cnfSat a cls

instance decLitSat (a : Nat → Bool) (lit : Int) : Decidable (litSat a lit) := by
  unfold litSat
  infer_instance

instance decClSat (a : Nat → Bool) (cl : List Int) : Decidable (clSat a cl) := by
  unfold clSat
  infer_instance

instance decCnfSat (a : Nat → Bool) (cls : List (List Int)) : Decidable (cnfSat a cls) := by
  unfold cnfSat
  infer_instance

/-- A bit list read as an assignment: variable v is bit v-1, variables
beyond the list are false. -/
def fromBits (l : List Bool) : Nat → Bool := fun v => l.getD (v - 1) false

/-- Boolean literal evaluation on a bit list. -/
def litSatB (l : List Bool) (lit : Int) : Bool :=
  if 0 < lit then l.getD (lit.natAbs - 1) false else !(l.getD (lit.natAbs - 1) false)

/-- Boolean clause evaluation on a bit list. -/
def clSatB (l : List Bool) (cl : List Int) : Bool := cl.any (litSatB l)

/-- Boolean clause-set evaluation on a bit list. -/
def cnfSatB (l : List Bool) (cls : List (List Int)) : Bool := cls.all (clSatB l)

/-- All bit lists of length n (all assignments to variables 1..n). -/
def allBitLists : Nat → List (List Bool)
  | 0 => [[]]
  | n + 1 => (allBitLists n).map (false :: ·) ++ (allBitLists n).map (true :: ·)

/-- Modelled from the spec: the SAT Oracle (pysat's Glucose3, an external
collaborator outside this repository) is "a solver that determines
satisfiability of a clause set and returns a satisfying assignment if one
exists".  It is modelled as a complete deterministic reference solver over
the variables 1..n: the first satisfying assignment in a fixed enumeration,
none when no assignment over these variables satisfies the clause set. -/
def solveAll (n : Nat) (cls : List (List Int)) : Option (List Bool) :=
  (allBitLists n).find? (fun l => cnfSatB l cls)

/-- The candidate extracted from a solver model in `find_mwps`:
`{self.get_name(var) for var in model if var > 0}`, the set of names of the
variables the assignment makes true. -/
def trueNames (s : CompState) (n : Nat) (l : List Bool) : Finset String :=
  ((List.range n).filterMap
    (fun i => if l.getD i false then revName s (i + 1) else none)).toFinset

/-- The blocking clause of `find_mwps`:
`[-var for var in model if var > 0]`. -/
def blockOf (n : Nat) (l : List Bool) : List Int :=
  (List.range n).filterMap
    (fun i => if l.getD i false then some (-((i + 1 : Nat) : Int)) else none)

/-- Assignment into `self.features` (a Python dict keyed by name): replace
in place when the key exists, append otherwise. -/
def dictInsert (m : List (String × Feature)) (k : String) (v : Feature) :
    List (String × Feature) :=
  if m.any (fun p => p.1 == k) then
    m.map (fun p => if p.1 == k then (k, v) else p)
  else m ++ [(k, v)]

mutual

/-- The `self.features[name] = feature` writes `parse_feature` performs for
one subtree, in execution order (children before their parent). -/
def featFold : Feature → List (String × Feature) → List (String × Feature)
  | .node nm md pr cs gp, m => dictInsert (featFoldL cs m) nm (.node nm md pr cs gp)

/-- The `self.features` writes for a forest, in order. -/
def featFoldL : List Feature → List (String × Feature) → List (String × Feature)
  | [], m => m
  | c :: cs, m => featFoldL cs (featFold c m)

end

/-- The `self.features` dict after parsing the tree, as an ordered
association list. -/
def featuresOf (m : FModel) : List (String × Feature) := featFold m.root []

/-- `is_valid_mwp`: no feature may be mandatory with its parent in the
candidate but itself missing. -/
def isValidMwp (feats : List (String × Feature)) (mwp : Finset String) : Bool :=
  feats.all (fun p =>
    !(p.2.mandatory &&
      (match p.2.parent with
       | some q => decide (q ∈ mwp)
       | none => false) &&
      !(decide (p.1 ∈ mwp))))

/-- The solve/block loop of `find_mwps`, with an explicit fuel counter (the
Python loop has none; the fuel bound is discharged by the termination
theorem).  Each round solves, extracts the candidate, keeps it when
`is_valid_mwp` accepts, and blocks the found assignment. -/
def mwpsLoop (feats : List (String × Feature)) (s : CompState) (n : Nat) :
    Nat → List (List Int) → List (Finset String) → Option (List (Finset String))
  | 0, _, _ => none
  | fuel + 1, cls, acc =>
      match solveAll n cls with
      | none => some acc
      | some l =>
          let mwp := trueNames s n l
          let acc1 := if isValidMwp feats mwp then acc ++ [mwp] else acc
          mwpsLoop feats s n fuel (cls ++ [blockOf n l]) acc1

/-- `filter_minimal_mwps`: keep a candidate unless some other accepted
candidate is a strict subset of it. -/
def filterMinimalMwps (mwps : List (Finset String)) : List (Finset String)  :=
  mwps.filter (fun mwp => !(mwps.any (fun other => decide (other ≠ mwp ∧ other ⊆ mwp))))

/-- `find_mwps`: compile, run the solve/block loop over the compiled
clauses, and filter to the subset-minimal candidates. -/
def findMwps (m : FModel) : Option (List (Finset String)) :=
  let s := generate m
  let n := s.nextVar - 1
  let feats := featuresOf m
  (mwpsLoop feats s n (2 ^ n + 1) s.clauses []).map filterMinimalMwps

/-- The unit clauses `validate_selection` adds: for each feature name, its
variable positively when selected, negatively otherwise, threading
`get_var` through the state. -/
def unitsFor : List String → Finset String → CompState → List (List Int) × CompState
  | [], _, s => ([], s)
  | nm :: rest, sel, s =>
      let r := getVar nm s
      let rest' := unitsFor rest sel r.2
      ((if nm ∈ sel then [(r.1 : Int)] else [-(r.1 : Int)]) :: rest'.1, rest'.2)

mutual

/-- `get_violation_messages`' recursive `check_feature` walk, accumulating
messages in traversal order. -/
def checkFeature (sel : Finset String) : Feature → List String → List String
  | .node nm md pr cs gp, msgs =>
      -- Mandatory feature check
      let m1 :=
        if md &&
           (match pr with
            | some q => decide (q ∈ sel)
            | none => false) &&
           !(decide (nm ∈ sel)) then
          msgs ++ ["Missing mandatory feature: " ++ nm]
        else msgs
      -- Group constraints
      let m2 :=
        if decide (nm ∈ sel) then
          if gp == some "XOR" then
            let selc := (cs.map Feature.name).filter (fun c => decide (c ∈ sel))
            if selc.length ≠ 1 then
              m1 ++ ["XOR group " ++ nm ++ " must have exactly one selection"]
            else m1
          else if gp == some "OR" then
            let selc := (cs.map Feature.name).filter (fun c => decide (c ∈ sel))
            if selc.isEmpty then
              m1 ++ ["OR group " ++ nm ++ " must have at least one selection"]
            else m1
          else m1
        else m1
      checkFeatureL sel cs m2

/-- `check_feature` over the children list. -/
def checkFeatureL (sel : Finset String) : List Feature → List String → List String
  | [], msgs => msgs
  | c :: cs, msgs => checkFeatureL sel cs (checkFeature sel c msgs)

end

/-- `get_violation_messages`: the tree walk from the root plus the
hard-coded cross-tree check. -/
def violationMessages (m : FModel) (sel : Finset String) : List String :=
  let base := checkFeature sel m.root []
  base ++
    (if decide ("ByLocation" ∈ sel) && !(decide ("Location" ∈ sel)) then
       ["Location feature is required for ByLocation"]
     else [])

/-- `validate_selection`: compile, fix every feature by a unit clause, ask
the Oracle; on failure attach the structural diagnostics. -/
def validateSelection (m : FModel) (sel : Finset String) : Bool × List String :=
  let s := generate m
  let names := (featuresOf m).map Prod.fst
  let r := unitsFor names sel s
  let isValid := (solveAll (r.2.nextVar - 1) (s.clauses ++ r.1)).isSome
  (isValid, if isValid then [] else violationMessages m sel)

/-- Registry/state invariant maintained by compilation: ids are assigned
densely from 1 in registration order, each name is registered at most
once, and every clause literal mentions a registered variable. -/
def StInv (s : CompState) : Prop :=
  s.nextVar = s.varMap.length + 1 ∧
  s.varMap.map Prod.snd = List.range' 1 s.varMap.length ∧
  (s.varMap.map Prod.fst).Nodup ∧
  ∀ cl ∈ s.clauses, ∀ lit ∈ cl, 1 ≤ lit.natAbs ∧ lit.natAbs < s.nextVar

/-- One compilation state extends another: the registry and the clause
list grow by appending only. -/
def StExt (s t : CompState) : Prop :=
  s.varMap <+: t.varMap ∧ s.clauses <+: t.clauses

/-- Facts established for a node `g` once the traversal has passed it,
relative to a compilation state `A`: its name is registered; a node whose
parent field is falsy (None or "") has its unit clause; a node with a
truthy parent has its edge clauses; an XOR group head has its
at-least-one clause and all pairwise exclusions. -/
def nodeFacts (A : CompState) (g : Feature) : Prop :=
  (∃ v, (g.name, v) ∈ A.varMap) ∧
  (parentTruthy g.parent = false →
    ∃ v, (g.name, v) ∈ A.varMap ∧ [(v : Int)] ∈ A.clauses) ∧
  (∀ pn, g.parent = some pn → pn ≠ "" →
    ∃ pv fv, (pn, pv) ∈ A.varMap ∧ (g.name, fv) ∈ A.varMap ∧
    ∀ c ∈ edgeClauses g.mandatory pv fv, c ∈ A.clauses) ∧
  (g.group = some "XOR" →
    ∃ gv cvs, (g.name, gv) ∈ A.varMap ∧
      ((-(gv : Int)) :: cvs.map (fun (x : Nat) => (x : Int))) ∈ A.clauses ∧
      (∀ S, StExt A S → StInv S → cvs = g.children.map (fun c => varIdx S c.name)) ∧
      (∀ q ∈ pairsOf (g.children.map Feature.name),
        ∃ v1 v2, (q.1, v1) ∈ A.varMap ∧ (q.2, v2) ∈ A.varMap ∧
          [-(v1 : Int), -(v2 : Int)] ∈ A.clauses))

/-- The number of assignments over variables 1..n satisfying a clause
set; the decreasing measure of the blocking loop. -/
def satCount (n : Nat) (cls : List (List Int)) : Nat :=
  ((allBitLists n).filter (fun l => cnfSatB l cls)).length

/-- An element of the uploaded XML document as `xml.etree` presents it:
tag, attribute map, text content (None when absent), child elements. -/
inductive XElem where
  | elem (tag : String) (attrs : List (String × String)) (text : Option String)
         (children : List XElem)

def XElem.tag : XElem → String
  | .elem t _ _ _ => t

def XElem.attrs : XElem → List (String × String)
  | .elem _ a _ _ => a

def XElem.text : XElem → Option String
  | .elem _ _ tx _ => tx

def XElem.children : XElem → List XElem
  | .elem _ _ _ cs => cs

/-- ASCII case folding of a string (how Python's lower()/upper() behave
on the ASCII attribute values the backend reads). -/
def strLower (s : String) : String := ⟨s.data.map Char.toLower⟩

/-- ASCII upper-casing, see `strLower`. -/
def strUpper (s : String) : String := ⟨s.data.map Char.toUpper⟩

/-- `element.attrib[k]` as a partial lookup. -/
def attrLookup (attrs : List (String × String)) (k : String) : Option String :=
  (attrs.find? (fun p => p.1 == k)).map Prod.snd

/-- `element.find(t)`: the first child element with the given tag. -/
def findChild (e : XElem) (t : String) : Option XElem :=
  e.children.find? (fun c => c.tag == t)

/-- The features dict, shared with the compiler embedding. -/
def FMap := List (String × Feature)

mutual

/-- `parse_feature`: read the name (KeyError when the attribute is
missing), the mandatory flag (default "false", lowercased comparison),
then either the group block (`element.find("group")`, handled by
`parseGroupIn` scanning the children for the first group tag) or the
plain `findall("feature")
` children, and finally store the node in `self.features` under its
name.  The features dict is threaded explicitly so that the state at the
moment of a failure is observable, as the Python instance attribute is. -/
def parseFeature : XElem → Option String → FMap → Except String Feature × FMap
  | .elem _ attrs0 _ kids, parent, fm =>
      match attrLookup attrs0 "name" with
      | none => (Except.error "KeyError: name", fm)
      | some nm =>
          let md := strLower ((attrLookup attrs0 "mandatory").getD "false") == "true"
          match parseGroupIn kids nm md parent fm with
          | some res => res
          | none =>
              let r := parseFeatureKids kids nm fm
              match r.1 with
              | Except.error msg => (Except.error msg, r.2)
              | Except.ok cs =>
                  let f := Feature.node nm md parent cs none
                  (Except.ok f, dictInsert r.2 nm f)

/-- Scan the children for the first element tagged "group" (the
`element.find("group")` call); when found, read its type attribute and
parse all of its child elements as the feature's children. -/
def parseGroupIn : List XElem → String → Bool → Option String → FMap →
    Option (Except String Feature × FMap)
  | [], _, _, _, _ => none
  | .elem t ga _ gkids :: rest, nm, md, parent, fm =>
      if t == "group" then
        some
          (match attrLookup ga "type" with
           | none => (Except.error "KeyError: type", fm)
           | some ty =>
               let r := parseAllKids gkids nm fm
               match r.1 with
               | Except.error msg => (Except.error msg, r.2)
               | Except.ok cs =>
                   let f := Feature.node nm md parent cs (some (strUpper ty))
                   (Except.ok f, dictInsert r.2 nm f))
      else parseGroupIn rest nm md parent fm

/-- The `for child in group` loop: every child element of the group is
parsed; a failure propagates but earlier siblings' stores remain. -/
def parseAllKids : List XElem → String → FMap → Except String (List Feature) × FMap
  | [], _, fm => (Except.ok [], fm)
  | e :: rest, parent, fm =>
      let r := parseFeature e (some parent) fm
      match r.1 with
      | Except.error msg => (Except.error msg, r.2)
      | Except.ok f =>
          let r2 := parseAllKids rest parent r.2
          match r2.1 with
          | Except.error msg => (Except.error msg, r2.2)
          | Except.ok fs => (Except.ok (f :: fs), r2.2)

/-- The `for child in element.findall("feature")` loop: like
`parseAllKids` but skipping elements with other tags. -/
def parseFeatureKids : List XElem → String → FMap → Except String (List Feature) × FMap
  | [], _, fm => (Except.ok [], fm)
  | e :: rest, parent, fm =>
      if e.tag == "feature" then
        let r := parseFeature e (some parent) fm
        match r.1 with
        | Except.error msg => (Except.error msg, r.2)
        | Except.ok f =>
            let r2 := parseFeatureKids rest parent r.2
            match r2.1 with
            | Except.error msg => (Except.error msg, r2.2)
            | Except.ok fs => (Except.ok (f :: fs), r2.2)
      else parseFeatureKids rest parent fm

end

mutual

/-- All proper descendants of an element in document order (the matches of
an `.//` search). -/
def descElems : XElem → List XElem
  | .elem _ _ _ cs => descElemsL cs

/-- `descElems` over a child list. -/
def descElemsL : List XElem → List XElem
  | [] => []
  | c :: cs => (c :: descElems c) ++ descElemsL cs

end

/-- The constraint loop of `parse_xml`: for each descendant `constraint`
element with an `englishStatement` child, append an entry whose type is
inferred from the text by the "required to" keyword test; an element whose
statement has no text makes the membership test crash (TypeError). -/
def addConstraints : List XElem → List Constraint → Except String Unit × List Constraint
  | [], cons => (Except.ok (), cons)
  | c :: rest, cons =>
      match findChild c "englishStatement" with
      | none => addConstraints rest cons
      | some e =>
          match e.text with
          | none => (Except.error "TypeError: argument of type NoneType is not iterable", cons)
          | some txt =>
              addConstraints rest
                (cons ++ [⟨txt, if strContains txt "required to" then "requires" else "excludes"⟩])

/-- `parse_xml` on an already-parsed document tree: locate the first
`feature` child of the document root (crashing like `parse_feature(None)`
when there is none), parse the tree, then collect the constraints.  The
features dict and the constraint list are threaded as the mutable
`self.features` / `self.constraints` state. -/
def parseXml (doc : XElem) (fm : FMap) (cons : List Constraint) :
    Except String Feature × FMap × List Constraint :=
  match findChild doc "feature" with
  | none => (Except.error "AttributeError: NoneType object has no attribute attrib", fm, cons)
  | some rootElem =>
      let r := parseFeature rootElem none fm
      match r.1 with
      | Except.error msg => (Except.error msg, r.2, cons)
      | Except.ok rootF =>
          let rc := addConstraints ((descElems doc).filter (fun c => c.tag == "constraint")) cons
          match rc.1 with
          | Except.error msg => (Except.error msg, r.2, rc.2)
          | Except.ok _ => (Except.ok rootF, r.2, rc.2)

/-- Document with two sibling features both named "A". -/
def xmlDup : XElem :=
  .elem "root" [] none
    [.elem "feature" [("name", "r")] none
      [.elem "feature" [("name", "A")] none [],
       .elem "feature" [("name", "A"), ("mandatory", "true")] none []]]

/-- Document whose root feature has no name attribute. -/
def xmlNoName : XElem :=
  .elem "root" [] none [.elem "feature" [("mandatory", "true")] none []]

/-- Document whose root feature has a good first child and a second child
with no name attribute. -/
def xmlPartial : XElem :=
  .elem "root" [] none
    [.elem "feature" [("name", "r")] none
      [.elem "feature" [("name", "A")] none [],
       .elem "feature" [("mandatory", "true")] none []]]

/-- Document with no feature element at all. -/
def xmlNoFeature : XElem := .elem "root" [] none [.elem "other" [] none []]

/-- The counterexample model for the XOR satisfiability claim: an XOR
group whose two children are both mandatory. -/
def featX : Feature := .node "x" true (some "r") [] none

def featY : Feature := .node "y" true (some "r") [] none

def featRootXY : Feature := .node "r" false none [featX, featY] (some "XOR")

def xorTwoModel : FModel := ⟨featRootXY, []⟩

/-- The counterexample model for the mandatory-biconditional claim: a
mandatory feature f whose parent is the feature named "" (an empty name
attribute is accepted by the parser); Python's truthiness test then treats
f as parentless. -/
def featF : Feature := .node "f" true (some "") [] none

def featEmpty : Feature := .node "" false (some "r") [featF] none

def featRootE : Feature := .node "r" false none [featEmpty] none

def cornerModel : FModel := ⟨featRootE, []⟩

theorem stExt_refl (s : CompState) : StExt s s :=
  ⟨List.prefix_refl _, List.prefix_refl _⟩

theorem stExt_trans {s t u : CompState} (h1 : StExt s t) (h2 : StExt t u) : StExt s u :=
  ⟨h1.1.trans h2.1, h1.2.trans h2.2⟩

theorem stInv_init : StInv initState := by
  refine ⟨rfl, rfl, List.nodup_nil, ?_⟩
  intro cl hcl
  simp [initState] at hcl

theorem nextVar_pos {s : CompState} (h : StInv s) : 1 ≤ s.nextVar := by
  rw [h.1]; omega

theorem nextVar_mono {s t : CompState} (hs : StInv s) (ht : StInv t) (he : StExt s t) :
    s.nextVar ≤ t.nextVar := by
  have := he.1.length_le
  rw [hs.1, ht.1]; omega

theorem mem_varMap_ext {s t : CompState} {nm : String} {v : Nat}
    (he : StExt s t) (h : (nm, v) ∈ s.varMap) : (nm, v) ∈ t.varMap :=
  he.1.subset h

theorem mem_clauses_ext {s t : CompState} {cl : List Int}
    (he : StExt s t) (h : cl ∈ s.clauses) : cl ∈ t.clauses :=
  he.2.subset h

/-- In an association list with distinct keys, lookup by key finds exactly
the stored pair. -/
theorem find?_fst_of_mem :
    ∀ {l : List (String × Nat)} {a : String} {b : Nat},
      (l.map Prod.fst).Nodup → (a, b) ∈ l →
      l.find? (fun p => p.1 == a) = some (a, b) := by
  intro l
  induction l with
  | nil => intro a b _ h; simp at h
  | cons p rest ih =>
      intro a b hnd hmem
      rw [List.map_cons, List.nodup_cons] at hnd
      rcases List.mem_cons.mp hmem with heq | htail
      · rw [← heq]
        simp [List.find?]
      · by_cases hk : p.1 = a
        · exfalso
          exact hnd.1 (hk ▸ (List.mem_map_of_mem Prod.fst htail))
        · rw [List.find?]
          have : (p.1 == a) = false := by simp [hk]
          rw [this]
          exact ih hnd.2 htail

/-- In an association list with distinct values, lookup by value finds
exactly the stored pair. -/
theorem find?_snd_of_mem :
    ∀ {l : List (String × Nat)} {a : String} {b : Nat},
      (l.map Prod.snd).Nodup → (a, b) ∈ l →
      l.find? (fun p => p.2 == b) = some (a, b) := by
  intro l
  induction l with
  | nil => intro a b _ h; simp at h
  | cons p rest ih =>
      intro a b hnd hmem
      rw [List.map_cons, List.nodup_cons] at hnd
      rcases List.mem_cons.mp hmem with heq | htail
      · rw [← heq]
        simp [List.find?]
      · by_cases hk : p.2 = b
        · exfalso
          exact hnd.1 (hk ▸ (List.mem_map_of_mem Prod.snd htail))
        · rw [List.find?]
          have : (p.2 == b) = false := by simp [hk]
          rw [this]
          exact ih hnd.2 htail

theorem valMap_nodup {s : CompState} (h : StInv s) : (s.varMap.map Prod.snd).Nodup := by
  rw [h.2.1]
  exact List.nodup_range' 1 s.varMap.length

theorem varIdx_of_mem {s : CompState} {nm : String} {v : Nat}
    (h : StInv s) (hm : (nm, v) ∈ s.varMap) : varIdx s nm = v := by
  unfold varIdx
  rw [find?_fst_of_mem h.2.2.1 hm]
  rfl

theorem revName_of_mem {s : CompState} {nm : String} {v : Nat}
    (h : StInv s) (hm : (nm, v) ∈ s.varMap) : revName s v = some nm := by
  unfold revName
  rw [find?_snd_of_mem (valMap_nodup h) hm]
  rfl

theorem mem_of_revName {s : CompState} {nm : String} {v : Nat}
    (h : revName s v = some nm) : (nm, v) ∈ s.varMap := by
  unfold revName at h
  rcases Option.map_eq_some'.mp h with ⟨p, hf, hp1⟩
  have hmem := List.mem_of_find?_eq_some hf
  have hp2 : p.2 = v := by simpa using List.find?_some hf
  have : p = (nm, v) := by
    cases p; simp_all
  rw [← this]
  exact hmem

theorem key_unique {s : CompState} {nm : String} {v w : Nat}
    (h : StInv s) (h1 : (nm, v) ∈ s.varMap) (h2 : (nm, w) ∈ s.varMap) : v = w := by
  have e1 := find?_fst_of_mem h.2.2.1 h1
  have e2 := find?_fst_of_mem h.2.2.1 h2
  rw [e1] at e2
  simpa using e2

theorem var_bound_of_mem {s : CompState} {nm : String} {v : Nat}
    (h : StInv s) (hm : (nm, v) ∈ s.varMap) : 1 ≤ v ∧ v < s.nextVar := by
  have hv : v ∈ s.varMap.map Prod.snd := List.mem_map_of_mem Prod.snd hm
  rw [h.2.1, List.mem_range'_1] at hv
  rw [h.1]
  omega

theorem getVar_eq_hit {s : CompState} {nm : String} {p : String × Nat}
    (hf : s.varMap.find? (fun q => q.1 == nm) = some p) : getVar nm s = (p.2, s) := by
  unfold getVar
  rw [hf]

theorem getVar_eq_miss {s : CompState} {nm : String}
    (hf : s.varMap.find? (fun q => q.1 == nm) = none) :
    getVar nm s =
      (s.nextVar,
       { s with varMap := s.varMap ++ [(nm, s.nextVar)], nextVar := s.nextVar + 1 }) := by
  unfold getVar
  rw [hf]

/-- Specification of `get_var`: the invariant is preserved, the state only
grows, no clause changes, and the returned id is registered and in range. -/
theorem getVar_spec (nm : String) (s : CompState) (h : StInv s) :
    StInv (getVar nm s).2 ∧ StExt s (getVar nm s).2 ∧
    (getVar nm s).2.clauses = s.clauses ∧
    (nm, (getVar nm s).1) ∈ (getVar nm s).2.varMap ∧
    1 ≤ (getVar nm s).1 ∧ (getVar nm s).1 < (getVar nm s).2.nextVar := by
  obtain ⟨h1, h2, h3, h4⟩ := h
  cases hf : s.varMap.find? (fun p => p.1 == nm) with
  | some p =>
      rw [getVar_eq_hit hf]
      have hmem := List.mem_of_find?_eq_some hf
      have hkey : p.1 = nm := by simpa using List.find?_some hf
      have hsnd : p.2 ∈ s.varMap.map Prod.snd := List.mem_map_of_mem Prod.snd hmem
      rw [h2, List.mem_range'_1] at hsnd
      refine ⟨⟨h1, h2, h3, h4⟩, stExt_refl s, rfl, ?_, ?_, ?_⟩
      · have he : (nm, p.2) = p := by cases p; simp_all
        simpa [he] using hmem
      · simpa using hsnd.1
      · simp only
        rw [h1]
        omega
  | none =>
      rw [getVar_eq_miss hf]
      have hnk : nm ∉ s.varMap.map Prod.fst := by
        intro hc
        rcases List.mem_map.mp hc with ⟨q, hq, hq1⟩
        have hne := List.find?_eq_none.mp hf q hq
        simp [hq1] at hne
      refine ⟨⟨?_, ?_, ?_, ?_⟩, ⟨List.prefix_append _ _, List.prefix_refl _⟩, rfl, ?_, ?_, ?_⟩
      · simp [h1]
      · simp only [List.map_append, List.map_cons, List.map_nil, List.length_append,
          List.length_cons, List.length_nil]
        rw [h2, h1]
        have hc := @List.range'_concat 1 1 s.varMap.length
        rw [Nat.one_mul, Nat.add_comm 1 s.varMap.length] at hc
        rw [hc]
      · simp only [List.map_append, List.map_cons, List.map_nil]
        rw [List.nodup_append]
        refine ⟨h3, List.nodup_singleton nm, ?_⟩
        intro x hx hy
        simp at hy
        rw [hy] at hx
        exact hnk hx
      · intro cl hcl lit hlit
        have := h4 cl hcl lit hlit
        exact ⟨this.1, by simp only; omega⟩
      · simp
      · simp only
        rw [h1]
        omega
      · simp

theorem getVar_registered {s : CompState} {nm : String} {v : Nat}
    (h : StInv s) (hm : (nm, v) ∈ s.varMap) : getVar nm s = (v, s) := by
  rw [getVar_eq_hit (find?_fst_of_mem h.2.2.1 hm)]

/-- A state equal to `s` except for appended clauses with in-range literals
(and arbitrary new rules) keeps the invariant and extends `s`. -/
theorem stInv_add {s t : CompState} (h : StInv s) {ncls : List (List Int)}
    (hvm : t.varMap = s.varMap) (hnv : t.nextVar = s.nextVar)
    (hcl : t.clauses = s.clauses ++ ncls)
    (hb : ∀ cl ∈ ncls, ∀ lit ∈ cl, 1 ≤ lit.natAbs ∧ lit.natAbs < s.nextVar) :
    StInv t ∧ StExt s t := by
  constructor
  · refine ⟨by rw [hnv, hvm]; exact h.1, by rw [hvm]; exact h.2.1,
      by rw [hvm]; exact h.2.2.1, ?_⟩
    intro cl hcl' lit hlit
    rw [hnv]
    rw [hcl] at hcl'
    rcases List.mem_append.mp hcl' with hL | hR
    · exact h.2.2.2 cl hL lit hlit
    · exact hb cl hR lit hlit
  · exact ⟨by rw [hvm], by rw [hcl]; exact List.prefix_append _ _⟩

/-- A state equal to `s` except for the rule log keeps the invariant and
extends `s`. -/
theorem stInv_same {s t : CompState} (h : StInv s) (hvm : t.varMap = s.varMap)
    (hnv : t.nextVar = s.nextVar) (hcl : t.clauses = s.clauses) :
    StInv t ∧ StExt s t :=
  stInv_add h hvm hnv (by rw [hcl, List.append_nil]) (by simp)

/-- Constructor form of `stInv_add`, for states written as record updates
of `s` appending clauses and replacing the rule log. -/
theorem stInv_addClauses {s : CompState} (h : StInv s) (ncls : List (List Int))
    (r : List String)
    (hb : ∀ cl ∈ ncls, ∀ lit ∈ cl, 1 ≤ lit.natAbs ∧ lit.natAbs < s.nextVar) :
    StInv ⟨s.varMap, s.nextVar, s.clauses ++ ncls, r⟩ ∧
    StExt s ⟨s.varMap, s.nextVar, s.clauses ++ ncls, r⟩ :=
  stInv_add h rfl rfl rfl hb

/-- Constructor form of `stInv_same`: only the rule log changes. -/
theorem stInv_rules {s : CompState} (h : StInv s) (r : List String) :
    StInv ⟨s.varMap, s.nextVar, s.clauses, r⟩ ∧
    StExt s ⟨s.varMap, s.nextVar, s.clauses, r⟩ :=
  stInv_same h rfl rfl rfl

theorem natAbs_neg_lit (v : Nat) : (-(v : Int)).natAbs = v := by
  simp

theorem natAbs_pos_lit (v : Nat) : ((v : Int)).natAbs = v := Int.natAbs_ofNat v

/-- Specification of the child-variable registration pass. -/
theorem childVars_spec :
    ∀ (cs : List Feature) (s : CompState), StInv s →
      StInv (childVars cs s).2 ∧ StExt s (childVars cs s).2 ∧
      (childVars cs s).2.clauses = s.clauses ∧
      (∀ v ∈ (childVars cs s).1, 1 ≤ v ∧ v < (childVars cs s).2.nextVar) ∧
      (∀ S, StExt (childVars cs s).2 S → StInv S →
        (childVars cs s).1 = cs.map (fun c => varIdx S c.name)) := by
  intro cs
  induction cs with
  | nil =>
      intro s h
      exact ⟨h, stExt_refl s, rfl, by simp [childVars], by simp [childVars]⟩
  | cons c cs ih =>
      intro s h
      obtain ⟨hI, hE, hC, hM, hLo, hHi⟩ := getVar_spec c.name s h
      obtain ⟨hI2, hE2, hC2, hBnd2, hMap2⟩ := ih (getVar c.name s).2 hI
      simp only [childVars]
      refine ⟨hI2, stExt_trans hE hE2, by rw [hC2, hC], ?_, ?_⟩
      · intro v hv
        rcases List.mem_cons.mp hv with rfl | hv'
        · have := nextVar_mono hI hI2 hE2
          exact ⟨hLo, by omega⟩
        · exact hBnd2 v hv'
      · intro S hS hSI
        have hv : varIdx S c.name = (getVar c.name s).1 :=
          varIdx_of_mem hSI (mem_varMap_ext (stExt_trans hE2 hS) hM)
        rw [List.map_cons, hv, hMap2 S hS hSI]

/-- Specification of the XOR mutual-exclusion pass: invariant kept, state
extended, and for every pair a clause of the negated pair variables. -/
theorem exclPairs_spec :
    ∀ (ps : List (String × String)) (s : CompState), StInv s →
      StInv (exclPairs ps s) ∧ StExt s (exclPairs ps s) ∧
      ∀ q ∈ ps, ∃ v1 v2, (q.1, v1) ∈ (exclPairs ps s).varMap ∧
        (q.2, v2) ∈ (exclPairs ps s).varMap ∧
        [-(v1 : Int), -(v2 : Int)] ∈ (exclPairs ps s).clauses := by
  intro ps
  induction ps with
  | nil => intro s h; exact ⟨h, stExt_refl s, by simp⟩
  | cons q ps ih =>
      intro s h
      obtain ⟨qa, qb⟩ := q
      simp only [exclPairs]
      generalize hsR : ({ s with rules := s.rules ++ ["¬(" ++ qa ++ " ∧ " ++ qb ++ ")"] } :
        CompState) = sR
      have hA : StInv sR ∧ StExt s sR := by
        rw [← hsR]
        exact stInv_rules h _
      generalize hr1 : getVar qa sR = r1
      have spec1 := getVar_spec qa sR hA.1
      rw [hr1] at spec1
      obtain ⟨hI1, hE1, hC1, hM1, hLo1, hHi1⟩ := spec1
      generalize hr2 : getVar qb r1.2 = r2
      have spec2 := getVar_spec qb r1.2 hI1
      rw [hr2] at spec2
      obtain ⟨hI2, hE2, hC2, hM2, hLo2, hHi2⟩ := spec2
      have hmono := nextVar_mono hI1 hI2 hE2
      have hD := stInv_addClauses hI2 [[-(r1.1 : Int), -(r2.1 : Int)]] r2.2.rules
        (by
          intro cl hcl lit hlit
          simp only [List.mem_singleton] at hcl
          subst hcl
          rcases List.mem_cons.mp hlit with rfl | hlit'
          · rw [natAbs_neg_lit]
            exact ⟨hLo1, by omega⟩
          · rcases List.mem_cons.mp hlit' with rfl | h0
            · rw [natAbs_neg_lit]
              exact ⟨hLo2, hHi2⟩
            · simp at h0)
      obtain ⟨hI3, hE3, hRest⟩ := ih _ hD.1
      refine ⟨hI3,
        stExt_trans hA.2 (stExt_trans hE1 (stExt_trans hE2 (stExt_trans hD.2 hE3))), ?_⟩
      intro q' hq'
      rcases List.mem_cons.mp hq' with rfl | hq''
      · refine ⟨r1.1, r2.1, ?_, ?_, ?_⟩
        · exact mem_varMap_ext (stExt_trans hE2 (stExt_trans hD.2 hE3)) hM1
        · exact mem_varMap_ext (stExt_trans hD.2 hE3) hM2
        · refine mem_clauses_ext hE3 ?_
          simp
      · exact hRest q' hq''

theorem processConstraint_spec (c : Constraint) (s : CompState) (h : StInv s) :
    StInv (processConstraint c s) ∧ StExt s (processConstraint c s) := by
  unfold processConstraint
  by_cases hr : (c.ctype == "requires") = true
  · simp only [hr, if_true]
    by_cases hft : strContains c.englishStatement "filter" = true
    · simp only [hft, if_true]
      generalize hsR : ({ s with rules := s.rules ++ ["Location → ByLocation"] } :
        CompState) = sR
      have hA : StInv sR ∧ StExt s sR := by
        rw [← hsR]
        exact stInv_rules h _
      generalize hr1 : getVar "ByLocation" sR = r1
      have spec1 := getVar_spec "ByLocation" sR hA.1
      rw [hr1] at spec1
      obtain ⟨hI1, hE1, hC1, hM1, hLo1, hHi1⟩ := spec1
      generalize hr2 : getVar "Location" r1.2 = r2
      have spec2 := getVar_spec "Location" r1.2 hI1
      rw [hr2] at spec2
      obtain ⟨hI2, hE2, hC2, hM2, hLo2, hHi2⟩ := spec2
      have hmono := nextVar_mono hI1 hI2 hE2
      have hD := stInv_addClauses hI2 [[-(r1.1 : Int), (r2.1 : Int)]] r2.2.rules
        (by
          intro cl hcl lit hlit
          simp only [List.mem_singleton] at hcl
          subst hcl
          rcases List.mem_cons.mp hlit with rfl | hlit'
          · rw [natAbs_neg_lit]
            exact ⟨hLo1, by omega⟩
          · rcases List.mem_cons.mp hlit' with rfl | h0
            · rw [natAbs_pos_lit]
              exact ⟨hLo2, hHi2⟩
            · simp at h0)
      exact ⟨hD.1, stExt_trans hA.2 (stExt_trans hE1 (stExt_trans hE2 hD.2))⟩
    · simp only [eq_false_of_ne_true hft, if_false]
      exact ⟨h, stExt_refl s⟩
  · simp only [eq_false_of_ne_true hr, if_false]
    exact ⟨h, stExt_refl s⟩

theorem processConstraints_spec :
    ∀ (cs : List Constraint) (s : CompState), StInv s →
      StInv (processConstraints cs s) ∧ StExt s (processConstraints cs s) := by
  intro cs
  induction cs with
  | nil => intro s h; exact ⟨h, stExt_refl s⟩
  | cons c cs ih =>
      intro s h
      have h1 := processConstraint_spec c s h
      have h2 := ih (processConstraint c s) h1.1
      exact ⟨h2.1, stExt_trans h1.2 h2.2⟩

theorem nodeFacts_mono {A B : CompState} {g : Feature}
    (hE : StExt A B) (h : nodeFacts A g) : nodeFacts B g := by
  obtain ⟨⟨v0, hv0⟩, hroot, hedge, hxor⟩ := h
  refine ⟨⟨v0, mem_varMap_ext hE hv0⟩, ?_, ?_, ?_⟩
  · intro hp
    obtain ⟨v, hv, hc⟩ := hroot hp
    exact ⟨v, mem_varMap_ext hE hv, mem_clauses_ext hE hc⟩
  · intro pn hp hne
    obtain ⟨pv, fv, h1, h2, h3⟩ := hedge pn hp hne
    exact ⟨pv, fv, mem_varMap_ext hE h1, mem_varMap_ext hE h2,
      fun c hc => mem_clauses_ext hE (h3 c hc)⟩
  · intro hg
    obtain ⟨gv, cvs, h1, h2, h3, h4⟩ := hxor hg
    refine ⟨gv, cvs, mem_varMap_ext hE h1, mem_clauses_ext hE h2, ?_, ?_⟩
    · intro S hS hSI
      exact h3 S (stExt_trans hE hS) hSI
    · intro q hq
      obtain ⟨v1, v2, m1, m2, mc⟩ := h4 q hq
      exact ⟨v1, v2, mem_varMap_ext hE m1, mem_varMap_ext hE m2, mem_clauses_ext hE mc⟩

theorem rootStage_spec (nm : String) (pr : Option String) (v : Nat) (s : CompState)
    (h : StInv s) (hLo : 1 ≤ v) (hHi : v < s.nextVar) :
    StInv (rootStage nm pr v s) ∧ StExt s (rootStage nm pr v s) ∧
    (parentTruthy pr = false → [(v : Int)] ∈ (rootStage nm pr v s).clauses) := by
  unfold rootStage
  by_cases ht : parentTruthy pr = true
  · rw [if_pos ht]
    refine ⟨h, stExt_refl s, ?_⟩
    intro hf
    rw [ht] at hf
    cases hf
  · have hf : parentTruthy pr = false := by
      revert ht
      cases parentTruthy pr <;> simp
    rw [if_neg ht]
    have hD := stInv_addClauses h [[(v : Int)]] (s.rules ++ [nm])
      (by
        intro cl hcl lit hlit
        simp only [List.mem_singleton] at hcl
        subst hcl
        rcases List.mem_cons.mp hlit with rfl | h0
        · rw [natAbs_pos_lit]
          exact ⟨hLo, hHi⟩
        · simp at h0)
    exact ⟨hD.1, hD.2, fun _ => by simp⟩

theorem edgeClauses_sub (md : Bool) (pv v : Nat) :
    ∀ cl ∈ edgeClauses md pv v,
      cl ∈ [[-(pv : Int), (v : Int)], [-(v : Int), (pv : Int)]] := by
  intro cl hcl
  cases md
  · simp only [edgeClauses, Bool.false_eq_true, if_false, List.mem_singleton] at hcl
    simp [hcl]
  · simpa [edgeClauses] using hcl

theorem edgeClauses_bound {md : Bool} {pv v n : Nat} (h1 : 1 ≤ pv) (h2 : pv < n)
    (h3 : 1 ≤ v) (h4 : v < n) :
    ∀ cl ∈ edgeClauses md pv v, ∀ lit ∈ cl, 1 ≤ lit.natAbs ∧ lit.natAbs < n := by
  intro cl hcl lit hlit
  have hsub := edgeClauses_sub md pv v cl hcl
  rcases List.mem_cons.mp hsub with rfl | hsub'
  · rcases List.mem_cons.mp hlit with rfl | hl
    · rw [natAbs_neg_lit]
      exact ⟨h1, h2⟩
    · rcases List.mem_cons.mp hl with rfl | h0
      · rw [natAbs_pos_lit]
        exact ⟨h3, h4⟩
      · simp at h0
  · rcases List.mem_singleton.mp hsub' with rfl
    rcases List.mem_cons.mp hlit with rfl | hl
    · rw [natAbs_neg_lit]
      exact ⟨h3, h4⟩
    · rcases List.mem_cons.mp hl with rfl | h0
      · rw [natAbs_pos_lit]
        exact ⟨h1, h2⟩
      · simp at h0

theorem edgeStage_spec (nm : String) (md : Bool) (pr : Option String) (v : Nat)
    (s : CompState) (h : StInv s) (hLo : 1 ≤ v) (hHi : v < s.nextVar) :
    StInv (edgeStage nm md pr v s) ∧ StExt s (edgeStage nm md pr v s) ∧
    (∀ pn, pr = some pn → pn ≠ "" →
      ∃ pv, (pn, pv) ∈ (edgeStage nm md pr v s).varMap ∧
      ∀ c ∈ edgeClauses md pv v, c ∈ (edgeStage nm md pr v s).clauses) := by
  cases pr with
  | none =>
      simp only [edgeStage]
      exact ⟨h, stExt_refl s, by simp⟩
  | some pname =>
      simp only [edgeStage]
      by_cases hemp : (pname == "") = true
      · rw [if_pos hemp]
        refine ⟨h, stExt_refl s, ?_⟩
        intro pn hpn hne
        injection hpn with hpn
        subst hpn
        exact absurd (by simpa using hemp) hne
      · rw [if_neg hemp]
        generalize hrp : getVar pname s = rp
        have spec := getVar_spec pname s h
        rw [hrp] at spec
        obtain ⟨hI1, hE1, hC1, hM1, hLo1, hHi1⟩ := spec
        have hmono := nextVar_mono h hI1 hE1
        have hD := stInv_addClauses hI1 (edgeClauses md rp.1 v)
          (rp.2.rules ++ edgeRules md pname nm)
          (edgeClauses_bound hLo1 hHi1 hLo (by omega))
        refine ⟨hD.1, stExt_trans hE1 hD.2, ?_⟩
        intro pn hpn hne
        injection hpn with hpn
        subst hpn
        refine ⟨rp.1, hM1, ?_⟩
        intro c hc
        simp only [List.mem_append]
        exact Or.inr hc

theorem groupStage_spec (nm : String) (gp : Option String) (cs : List Feature) (v : Nat)
    (s : CompState) (h : StInv s) (hLo : 1 ≤ v) (hHi : v < s.nextVar) :
    StInv (groupStage nm gp cs v s) ∧ StExt s (groupStage nm gp cs v s) ∧
    (gp = some "XOR" →
      ∃ cvs,
        ((-(v : Int)) :: cvs.map (fun (x : Nat) => (x : Int))) ∈ (groupStage nm gp cs v s).clauses ∧
        (∀ S, StExt (groupStage nm gp cs v s) S → StInv S →
          cvs = cs.map (fun c => varIdx S c.name)) ∧
        (∀ q ∈ pairsOf (cs.map Feature.name),
          ∃ v1 v2, (q.1, v1) ∈ (groupStage nm gp cs v s).varMap ∧
            (q.2, v2) ∈ (groupStage nm gp cs v s).varMap ∧
            [-(v1 : Int), -(v2 : Int)] ∈ (groupStage nm gp cs v s).clauses)) := by
  by_cases hx : gp = some "XOR"
  · rw [groupStage, if_pos hx]
    generalize hrc : childVars cs s = rc
    have spec := childVars_spec cs s h
    rw [hrc] at spec
    obtain ⟨hI1, hE1, hC1, hB1, hMap1⟩ := spec
    have hmono := nextVar_mono h hI1 hE1
    have hD := stInv_addClauses hI1 [(-(v : Int)) :: rc.1.map (fun (x : Nat) => (x : Int))]
      (rc.2.rules ++ [nm ++ " → (" ++ joinSep " ∨ " (cs.map Feature.name) ++ ")"])
      (by
        intro cl hcl lit hlit
        simp only [List.mem_singleton] at hcl
        subst hcl
        rcases List.mem_cons.mp hlit with rfl | hl
        · rw [natAbs_neg_lit]
          exact ⟨hLo, by omega⟩
        · obtain ⟨a, ha, rfl⟩ := List.mem_map.mp hl
          have := hB1 a ha
          omega)
    obtain ⟨hI2, hE2, hPairs⟩ := exclPairs_spec (pairsOf (cs.map Feature.name)) _ hD.1
    refine ⟨hI2, stExt_trans hE1 (stExt_trans hD.2 hE2), ?_⟩
    intro _
    refine ⟨rc.1, ?_, ?_, ?_⟩
    · exact mem_clauses_ext hE2 (by simp)
    · intro S hS hSI
      exact hMap1 S (stExt_trans hD.2 (stExt_trans hE2 hS)) hSI
    · intro q hq
      exact hPairs q hq
  · by_cases ho : gp = some "OR"
    · rw [groupStage, if_neg hx, if_pos ho]
      generalize hrc : childVars cs s = rc
      have spec := childVars_spec cs s h
      rw [hrc] at spec
      obtain ⟨hI1, hE1, hC1, hB1, hMap1⟩ := spec
      have hmono := nextVar_mono h hI1 hE1
      have hD := stInv_addClauses hI1 [(-(v : Int)) :: rc.1.map (fun (x : Nat) => (x : Int))]
        (rc.2.rules ++ [nm ++ " → (" ++ joinSep " ∨ " (cs.map Feature.name) ++ ")"])
        (by
          intro cl hcl lit hlit
          simp only [List.mem_singleton] at hcl
          subst hcl
          rcases List.mem_cons.mp hlit with rfl | hl
          · rw [natAbs_neg_lit]
            exact ⟨hLo, by omega⟩
          · obtain ⟨a, ha, rfl⟩ := List.mem_map.mp hl
            have := hB1 a ha
            omega)
      refine ⟨hD.1, stExt_trans hE1 hD.2, ?_⟩
      intro he
      exact absurd he hx
    · rw [groupStage, if_neg hx, if_neg ho]
      exact ⟨h, stExt_refl s, fun he => absurd he hx⟩

mutual

/-- Main compilation invariant: after processing a subtree the state
invariant holds, the state only grew, and every node of the subtree has its
structural clauses in the clause list. -/
theorem processFeature_facts :
    ∀ (f : Feature) (s : CompState), StInv s →
      StInv (processFeature f s) ∧ StExt s (processFeature f s) ∧
      ∀ g ∈ subfeatures f, nodeFacts (processFeature f s) g
  | .node nm md pr cs gp, s, h => by
      simp only [processFeature]
      generalize hr0 : getVar nm s = r0
      have spec0 := getVar_spec nm s h
      rw [hr0] at spec0
      obtain ⟨hI0, hE0, hC0, hM0, hLo0, hHi0⟩ := spec0
      obtain ⟨hIA, hEA, hRootF⟩ := rootStage_spec nm pr r0.1 r0.2 hI0 hLo0 hHi0
      have hmA := nextVar_mono hI0 hIA hEA
      obtain ⟨hIB, hEB, hEdgeF⟩ := edgeStage_spec nm md pr r0.1 _ hIA hLo0 (by omega)
      have hmB := nextVar_mono hIA hIB hEB
      obtain ⟨hIC, hEC, hXorF⟩ := groupStage_spec nm gp cs r0.1 _ hIB hLo0 (by omega)
      obtain ⟨hID, hED, hKids⟩ := processFeatureL_facts cs _ hIC
      refine ⟨hID,
        stExt_trans hE0 (stExt_trans hEA (stExt_trans hEB (stExt_trans hEC hED))), ?_⟩
      intro g hg
      simp only [subfeatures] at hg
      rcases List.mem_cons.mp hg with rfl | hg'
      · simp only [nodeFacts, Feature.name, Feature.parent, Feature.mandatory,
          Feature.children, Feature.group]
        have hMfin : (nm, r0.1) ∈
            (processFeatureL cs (groupStage nm gp cs r0.1
              (edgeStage nm md pr r0.1 (rootStage nm pr r0.1 r0.2)))).varMap :=
          mem_varMap_ext (stExt_trans hEA (stExt_trans hEB (stExt_trans hEC hED))) hM0
        refine ⟨⟨r0.1, hMfin⟩, ?_, ?_, ?_⟩
        · intro hpr
          refine ⟨r0.1, hMfin, ?_⟩
          exact mem_clauses_ext (stExt_trans hEB (stExt_trans hEC hED)) (hRootF hpr)
        · intro pn hpn hne
          obtain ⟨pv, hpv, hcls⟩ := hEdgeF pn hpn hne
          refine ⟨pv, r0.1, mem_varMap_ext (stExt_trans hEC hED) hpv, hMfin, ?_⟩
          intro c hc
          exact mem_clauses_ext (stExt_trans hEC hED) (hcls c hc)
        · intro hgp
          obtain ⟨cvs, hclause, hcvs, hpairs⟩ := hXorF hgp
          refine ⟨r0.1, cvs, hMfin, mem_clauses_ext hED hclause, ?_, ?_⟩
          · intro S hS hSI
            exact hcvs S (stExt_trans hED hS) hSI
          · intro q hq
            obtain ⟨v1, v2, m1, m2, mc⟩ := hpairs q hq
            exact ⟨v1, v2, mem_varMap_ext hED m1, mem_varMap_ext hED m2,
              mem_clauses_ext hED mc⟩
      · exact hKids g hg'

/-- `processFeature_facts` for the child loop. -/
theorem processFeatureL_facts :
    ∀ (cs : List Feature) (s : CompState), StInv s →
      StInv (processFeatureL cs s) ∧ StExt s (processFeatureL cs s) ∧
      ∀ g ∈ subfeaturesL cs, nodeFacts (processFeatureL cs s) g
  | [], s, h => ⟨h, stExt_refl s, by simp [subfeaturesL, processFeatureL]⟩
  | c :: cs, s, h => by
      obtain ⟨hI1, hE1, hF1⟩ := processFeature_facts c s h
      obtain ⟨hI2, hE2, hF2⟩ := processFeatureL_facts cs (processFeature c s) hI1
      simp only [processFeatureL]
      refine ⟨hI2, stExt_trans hE1 hE2, ?_⟩
      intro g hg
      simp only [subfeaturesL] at hg
      rcases List.mem_append.mp hg with hgl | hgr
      · exact nodeFacts_mono hE2 (hF1 g hgl)
      · exact hF2 g hgr

end

/-- The full compiler `generate` keeps the invariant and establishes the
structural clauses of every node of the tree. -/
theorem generate_facts (m : FModel) :
    StInv (generate m) ∧ ∀ g ∈ subfeatures m.root, nodeFacts (generate m) g := by
  obtain ⟨hI1, hE1, hF1⟩ := processFeature_facts m.root initState stInv_init
  obtain ⟨hI2, hE2⟩ := processConstraints_spec m.constraints _ hI1
  exact ⟨hI2, fun g hg => nodeFacts_mono hE2 (hF1 g hg)⟩

theorem litSat_pos (a : Nat → Bool) {v : Nat} (hv : 1 ≤ v) :
    litSat a (v : Int) ↔ a v = true := by
  have h0 : (0 : Int) < (v : Int) := by omega
  simp [litSat, h0]

theorem litSat_neg (a : Nat → Bool) {v : Nat} (hv : 1 ≤ v) :
    litSat a (-(v : Int)) ↔ a v = false := by
  have h0 : ¬((0 : Int) < -(v : Int)) := by omega
  simp [litSat, h0]

theorem cnfSat_append {a : Nat → Bool} {c1 c2 : List (List Int)} :
    cnfSat a (c1 ++ c2) ↔ cnfSat a c1 ∧ cnfSat a c2 := by
  simp [cnfSat, List.mem_append, or_imp, forall_and]

theorem cnfSat_of_sub {a : Nat → Bool} {c1 c2 : List (List Int)}
    (hsub : c1 ⊆ c2) (h : cnfSat a c2) : cnfSat a c1 :=
  fun cl hcl => h cl (hsub hcl)

theorem litSatB_iff (l : List Bool) (lit : Int) :
    litSatB l lit = true ↔ litSat (fromBits l) lit := by
  unfold litSatB litSat fromBits
  by_cases h : (0 : Int) < lit
  · simp [h]
  · simp [h]

theorem clSatB_iff (l : List Bool) (cl : List Int) :
    clSatB l cl = true ↔ clSat (fromBits l) cl := by
  unfold clSatB clSat
  rw [List.any_eq_true]
  simp [litSatB_iff]

theorem cnfSatB_iff (l : List Bool) (cls : List (List Int)) :
    cnfSatB l cls = true ↔ cnfSat (fromBits l) cls := by
  unfold cnfSatB cnfSat
  rw [List.all_eq_true]
  simp [clSatB_iff]

theorem mem_allBitLists {n : Nat} {l : List Bool} :
    l ∈ allBitLists n ↔ l.length = n := by
  induction n generalizing l with
  | zero => simp [allBitLists, List.length_eq_zero]
  | succ n ih =>
      simp only [allBitLists, List.mem_append, List.mem_map]
      constructor
      · rintro (⟨l', hl', rfl⟩ | ⟨l', hl', rfl⟩) <;> simp [ih.mp hl']
      · intro hlen
        cases l with
        | nil => simp at hlen
        | cons b l' =>
            have hl' : l'.length = n := by simpa using hlen
            cases b
            · exact Or.inl ⟨l', ih.mpr hl', rfl⟩
            · exact Or.inr ⟨l', ih.mpr hl', rfl⟩

theorem solveAll_sound {n : Nat} {cls : List (List Int)} {l : List Bool}
    (h : solveAll n cls = some l) :
    l.length = n ∧ cnfSatB l cls = true := by
  unfold solveAll at h
  refine ⟨mem_allBitLists.mp (List.mem_of_find?_eq_some h), ?_⟩
  have hp := List.find?_some h
  simpa using hp

theorem solveAll_none {n : Nat} {cls : List (List Int)} (h : solveAll n cls = none) :
    ∀ l ∈ allBitLists n, cnfSatB l cls = false := by
  unfold solveAll at h
  intro l hl
  have := List.find?_eq_none.mp h l hl
  simpa using this

theorem restrict_getD (a : Nat → Bool) (n i : Nat) (hi : i < n) :
    ((List.range n).map (fun j => a (j + 1))).getD i false = a (i + 1) := by
  rw [List.getD_eq_getElem?_getD, List.getElem?_map, List.getElem?_range hi]
  rfl

/-- Completeness of the reference solver up to the variable bound: a clause
set over variables 1..n with a satisfying assignment has a solver model. -/
theorem solveAll_complete {n : Nat} {cls : List (List Int)} {a : Nat → Bool}
    (hsat : cnfSat a cls)
    (hb : ∀ cl ∈ cls, ∀ lit ∈ cl, 1 ≤ lit.natAbs ∧ lit.natAbs ≤ n) :
    ∃ l, solveAll n cls = some l := by
  have hlen : ((List.range n).map (fun j => a (j + 1))).length = n := by simp
  have hmem : ((List.range n).map (fun j => a (j + 1))) ∈ allBitLists n :=
    mem_allBitLists.mpr hlen
  have hsatB : cnfSatB ((List.range n).map (fun j => a (j + 1))) cls = true := by
    rw [cnfSatB, List.all_eq_true]
    intro cl hcl
    rw [clSatB, List.any_eq_true]
    obtain ⟨lit, hlit, hls⟩ := hsat cl hcl
    refine ⟨lit, hlit, ?_⟩
    obtain ⟨hb1, hb2⟩ := hb cl hcl lit hlit
    have hidx : lit.natAbs - 1 < n := by omega
    have hgd : ((List.range n).map (fun j => a (j + 1))).getD (lit.natAbs - 1) false =
        a lit.natAbs := by
      rw [restrict_getD a n _ hidx]
      congr 1
      omega
    unfold litSatB
    unfold litSat at hls
    by_cases hpos : (0 : Int) < lit
    · rw [if_pos hpos] at hls ⊢
      rw [hgd]
      exact hls
    · rw [if_neg hpos] at hls ⊢
      rw [hgd, hls]
      rfl
  rcases hf : (allBitLists n).find? (fun l => cnfSatB l cls) with _ | l
  · exfalso
    have := List.find?_eq_none.mp hf _ hmem
    simp [hsatB] at this
  · exact ⟨l, hf⟩

/-- The reference solver decides satisfiability of bounded clause sets. -/
theorem solveAll_isSome_iff {n : Nat} {cls : List (List Int)}
    (hb : ∀ cl ∈ cls, ∀ lit ∈ cl, 1 ≤ lit.natAbs ∧ lit.natAbs ≤ n) :
    (∃ l, solveAll n cls = some l) ↔ SatCnf cls := by
  constructor
  · rintro ⟨l, hl⟩
    obtain ⟨_, hsat⟩ := solveAll_sound hl
    exact ⟨fromBits l, (cnfSatB_iff l cls).mp hsat⟩
  · rintro ⟨a, ha⟩
    exact solveAll_complete ha hb

theorem litSatB_negSucc (l : List Bool) (i : Nat) :
    litSatB l (-((i + 1 : Nat) : Int)) = !(l.getD i false) := by
  unfold litSatB
  have h0 : ¬((0 : Int) < -((i + 1 : Nat) : Int)) := by omega
  rw [if_neg h0]
  have h1 : (-((i + 1 : Nat) : Int)).natAbs = i + 1 := by omega
  rw [h1]
  simp

theorem mem_blockOf {n : Nat} {l : List Bool} {lit : Int} :
    lit ∈ blockOf n l ↔
      ∃ i, i < n ∧ l.getD i false = true ∧ lit = -((i + 1 : Nat) : Int) := by
  unfold blockOf
  rw [List.mem_filterMap]
  constructor
  · rintro ⟨i, hi, hf⟩
    rw [List.mem_range] at hi
    by_cases hgd : l.getD i false = true
    · rw [if_pos hgd] at hf
      exact ⟨i, hi, hgd, by injection hf with hf; omega⟩
    · rw [if_neg hgd] at hf
      cases hf
  · rintro ⟨i, hi, hgd, rfl⟩
    exact ⟨i, List.mem_range.mpr hi, by rw [if_pos hgd]⟩

/-- The found assignment itself falsifies its own blocking clause. -/
theorem clSatB_blockOf_self (n : Nat) (l : List Bool) :
    clSatB l (blockOf n l) = false := by
  rw [clSatB, List.any_eq_false]
  intro lit hlit
  obtain ⟨i, hi, hgd, rfl⟩ := mem_blockOf.mp hlit
  rw [litSatB_negSucc, hgd]
  simp

theorem cnfSatB_append (l : List Bool) (c1 c2 : List (List Int)) :
    cnfSatB l (c1 ++ c2) = (cnfSatB l c1 && cnfSatB l c2) := by
  simp [cnfSatB, List.all_append]

theorem cnfSatB_of_sub {l : List Bool} {c1 c2 : List (List Int)}
    (hsub : c1 ⊆ c2) (h : cnfSatB l c2 = true) : cnfSatB l c1 = true := by
  rw [cnfSatB, List.all_eq_true] at h ⊢
  exact fun cl hcl => h cl (hsub hcl)

theorem length_filter_le_of_imp {α : Type} (p q : α → Bool) :
    ∀ (L : List α), (∀ x ∈ L, q x = true → p x = true) →
      (L.filter q).length ≤ (L.filter p).length := by
  intro L
  induction L with
  | nil => intro _; simp
  | cons y L ih =>
      intro himp
      have hL := ih (fun x hx => himp x (List.mem_cons_of_mem y hx))
      rw [List.filter_cons, List.filter_cons]
      by_cases hqy : q y = true
      · rw [if_pos hqy, if_pos (himp y (List.mem_cons_self y L) hqy)]
        simpa using hL
      · rw [if_neg hqy]
        by_cases hpy : p y = true
        · rw [if_pos hpy]
          simp only [List.length_cons]
          omega
        · rw [if_neg hpy]
          exact hL

theorem length_filter_lt {α : Type} (p q : α → Bool) :
    ∀ (L : List α), (∀ x ∈ L, q x = true → p x = true) →
      ∀ x ∈ L, p x = true → q x = false →
      (L.filter q).length < (L.filter p).length := by
  intro L
  induction L with
  | nil => intro _ x hx; simp at hx
  | cons y L ih =>
      intro himp x hx hpx hqx
      have himpL := fun z hz => himp z (List.mem_cons_of_mem y hz)
      rw [List.filter_cons, List.filter_cons]
      rcases List.mem_cons.mp hx with rfl | hxL
      · rw [if_pos hpx, if_neg (by rw [hqx]; simp)]
        have := length_filter_le_of_imp p q L himpL
        simp only [List.length_cons]
        omega
      · by_cases hqy : q y = true
        · rw [if_pos hqy, if_pos (himp y (List.mem_cons_self y L) hqy)]
          have := ih himpL x hxL hpx hqx
          simpa using this
        · rw [if_neg hqy]
          have := ih himpL x hxL hpx hqx
          by_cases hpy : p y = true
          · rw [if_pos hpy]
            simp only [List.length_cons]
            omega
          · rw [if_neg hpy]
            exact this

/-- Each solve/block round strictly shrinks the satisfying-assignment
count: the blocking clause kills at least the model just found. -/
theorem satCount_lt {n : Nat} {cls : List (List Int)} {l : List Bool}
    (h : solveAll n cls = some l) :
    satCount n (cls ++ [blockOf n l]) < satCount n cls := by
  obtain ⟨hlen, hsat⟩ := solveAll_sound h
  have hmem : l ∈ allBitLists n := mem_allBitLists.mpr hlen
  unfold satCount
  refine length_filter_lt (fun x => cnfSatB x cls)
    (fun x => cnfSatB x (cls ++ [blockOf n l])) (allBitLists n) ?_ l hmem hsat ?_
  · intro x _ hq
    exact cnfSatB_of_sub (List.subset_append_left _ _) hq
  · show cnfSatB l (cls ++ [blockOf n l]) = false
    rw [cnfSatB_append]
    have hbl : cnfSatB l [blockOf n l] = false := by
      simp [cnfSatB, clSatB_blockOf_self]
    rw [hbl]
    simp

theorem length_allBitLists (n : Nat) : (allBitLists n).length = 2 ^ n := by
  induction n with
  | zero => rfl
  | succ n ih =>
      simp only [allBitLists, List.length_append, List.length_map, ih]
      rw [pow_succ]
      omega

theorem satCount_le (n : Nat) (cls : List (List Int)) : satCount n cls ≤ 2 ^ n := by
  unfold satCount
  calc ((allBitLists n).filter (fun l => cnfSatB l cls)).length
      ≤ (allBitLists n).length := List.length_filter_le _ _
    _ = 2 ^ n := length_allBitLists n

/-- With fuel exceeding the satisfying-assignment count, the solve/block
loop returns. -/
theorem mwpsLoop_total :
    ∀ (fuel : Nat) (feats : List (String × Feature)) (s : CompState) (n : Nat)
      (cls : List (List Int)) (acc : List (Finset String)),
      satCount n cls < fuel → ∃ out, mwpsLoop feats s n fuel cls acc = some out := by
  intro fuel
  induction fuel with
  | zero =>
      intro feats s n cls acc h
      omega
  | succ fuel ih =>
      intro feats s n cls acc h
      cases hs : solveAll n cls with
      | none => exact ⟨acc, by simp [mwpsLoop, hs]⟩
      | some l =>
          have hdec := satCount_lt hs
          obtain ⟨out, hout⟩ := ih feats s n (cls ++ [blockOf n l])
            (if isValidMwp feats (trueNames s n l) then acc ++ [trueNames s n l] else acc)
            (by omega)
          exact ⟨out, by simp only [mwpsLoop, hs]; exact hout⟩

/-- `find_mwps` terminates on every model: the explicit fuel suffices. -/
theorem findMwps_total (m : FModel) : ∃ out, findMwps m = some out := by
  have hb := satCount_le ((generate m).nextVar - 1) (generate m).clauses
  obtain ⟨out, hout⟩ := mwpsLoop_total (2 ^ ((generate m).nextVar - 1) + 1)
    (featuresOf m) (generate m) ((generate m).nextVar - 1) (generate m).clauses []
    (by omega)
  exact ⟨filterMinimalMwps out, by simp only [findMwps, hout, Option.map_some']⟩

/-- Every candidate the loop accepts is the true-name set of some bounded
assignment satisfying the base clause set loaded into the solver. -/
theorem mwpsLoop_mem :
    ∀ (fuel : Nat) (feats : List (String × Feature)) (s : CompState) (n : Nat)
      (cls : List (List Int)) (acc out : List (Finset String))
      (base : List (List Int)),
      base ⊆ cls →
      mwpsLoop feats s n fuel cls acc = some out →
      ∀ mwp ∈ out, mwp ∈ acc ∨
        ∃ l, l.length = n ∧ cnfSatB l base = true ∧ mwp = trueNames s n l := by
  intro fuel
  induction fuel with
  | zero =>
      intro feats s n cls acc out base hsub hloop
      simp [mwpsLoop] at hloop
  | succ fuel ih =>
      intro feats s n cls acc out base hsub hloop
      rw [mwpsLoop] at hloop
      cases hs : solveAll n cls with
      | none =>
          rw [hs] at hloop
          simp only [Option.some_inj] at hloop
          subst hloop
          intro mwp hm
          exact Or.inl hm
      | some l =>
          rw [hs] at hloop
          simp only at hloop
          have hsub' : base ⊆ cls ++ [blockOf n l] :=
            hsub.trans (List.subset_append_left _ _)
          intro mwp hm
          have hrec := ih feats s n (cls ++ [blockOf n l])
            (if isValidMwp feats (trueNames s n l) then acc ++ [trueNames s n l] else acc)
            out base hsub' hloop mwp hm
          rcases hrec with hacc1 | hP
          · by_cases hv : isValidMwp feats (trueNames s n l) = true
            · rw [if_pos hv] at hacc1
              rcases List.mem_append.mp hacc1 with h1 | h2
              · exact Or.inl h1
              · right
                obtain ⟨hlen, hsat⟩ := solveAll_sound hs
                exact ⟨l, hlen, cnfSatB_of_sub hsub hsat, by simpa using h2⟩
            · rw [if_neg hv] at hacc1
              exact Or.inl hacc1
          · exact Or.inr hP

/-- Every product `find_mwps` returns is the true-name set of a bounded
assignment satisfying the compiled clause set. -/
theorem findMwps_mem {m : FModel} {out : List (Finset String)}
    (h : findMwps m = some out) :
    ∀ mwp ∈ out, ∃ l, l.length = (generate m).nextVar - 1 ∧
      cnfSatB l (generate m).clauses = true ∧
      mwp = trueNames (generate m) ((generate m).nextVar - 1) l := by
  unfold findMwps at h
  dsimp only at h
  cases hl : mwpsLoop (featuresOf m) (generate m) ((generate m).nextVar - 1)
      (2 ^ ((generate m).nextVar - 1) + 1) (generate m).clauses [] with
  | none =>
      rw [hl] at h
      simp at h
  | some res =>
      rw [hl] at h
      simp only [Option.map_some', Option.some_inj] at h
      intro mwp hm
      have hmres : mwp ∈ res := by
        rw [← h] at hm
        unfold filterMinimalMwps at hm
        exact (List.mem_filter.mp hm).1
      have hrec := mwpsLoop_mem _ _ _ _ _ _ _ (generate m).clauses
        (List.Subset.refl _) hl mwp hmres
      rcases hrec with habs | hP
      · simp at habs
      · exact hP

/-- Membership in the candidate extracted from a solver model: exactly the
registered names whose variable the assignment makes true. -/
theorem mem_trueNames {s : CompState} {n : Nat} {l : List Bool} {nm : String}
    (h : StInv s) :
    nm ∈ trueNames s n l ↔
      ∃ v, 1 ≤ v ∧ v ≤ n ∧ (nm, v) ∈ s.varMap ∧ l.getD (v - 1) false = true := by
  unfold trueNames
  rw [List.mem_toFinset, List.mem_filterMap]
  constructor
  · rintro ⟨i, hi, hf⟩
    rw [List.mem_range] at hi
    by_cases hgd : l.getD i false = true
    · rw [if_pos hgd] at hf
      have hmem := mem_of_revName hf
      exact ⟨i + 1, by omega, by omega, hmem, by simpa using hgd⟩
    · rw [if_neg hgd] at hf
      cases hf
  · rintro ⟨v, hv1, hvn, hmem, hgd⟩
    refine ⟨v - 1, List.mem_range.mpr (by omega), ?_⟩
    rw [if_pos hgd]
    have hvv : v - 1 + 1 = v := by omega
    rw [hvv]
    exact revName_of_mem h hmem

/-- `mem_trueNames` specialised to a name with a known variable. -/
theorem mem_trueNames_var {s : CompState} {n : Nat} {l : List Bool} {nm : String}
    {v : Nat} (h : StInv s) (hmem : (nm, v) ∈ s.varMap) :
    nm ∈ trueNames s n l ↔ (v ≤ n ∧ l.getD (v - 1) false = true) := by
  rw [mem_trueNames h]
  constructor
  · rintro ⟨w, hw1, hwn, hwmem, hgd⟩
    have hvw := key_unique h hwmem hmem
    subst hvw
    exact ⟨hwn, hgd⟩
  · rintro ⟨hvn, hgd⟩
    exact ⟨v, (var_bound_of_mem h hmem).1, hvn, hmem, hgd⟩

theorem keys_dictInsert (m : List (String × Feature)) (k : String) (v : Feature) :
    ∀ x, x ∈ (dictInsert m k v).map Prod.fst ↔ (x ∈ m.map Prod.fst ∨ x = k) := by
  intro x
  unfold dictInsert
  by_cases hany : m.any (fun p => p.1 == k) = true
  · rw [if_pos hany]
    have hkeys : (m.map (fun p => if p.1 == k then (k, v) else p)).map Prod.fst =
        m.map Prod.fst := by
      rw [List.map_map]
      apply List.map_congr_left
      intro p _
      by_cases hpk : (p.1 == k) = true
      · simp only [Function.comp_apply, if_pos hpk]
        have : p.1 = k := by simpa using hpk
        simp [this]
      · simp only [Function.comp_apply, if_neg hpk]
    rw [hkeys]
    constructor
    · exact Or.inl
    · rintro (h | rfl)
      · exact h
      · rw [List.any_eq_true] at hany
        obtain ⟨p, hp, hpk⟩ := hany
        have hpx : p.1 = x := by simpa using hpk
        exact hpx ▸ List.mem_map_of_mem Prod.fst hp
  · rw [if_neg hany]
    simp [List.mem_append]

mutual

/-- The keys of the features dict built from a subtree: the initial keys
plus the names of the subtree's nodes. -/
theorem featFold_keys :
    ∀ (t : Feature) (m0 : List (String × Feature)) (x : String),
      x ∈ (featFold t m0).map Prod.fst ↔
        (x ∈ m0.map Prod.fst ∨ ∃ f ∈ subfeatures t, f.name = x)
  | .node nm md pr cs gp, m0, x => by
      simp only [featFold]
      rw [keys_dictInsert, featFoldL_keys cs m0 x]
      simp only [subfeatures, List.mem_cons]
      constructor
      · rintro ((h0 | ⟨f, hf, rfl⟩) | hx)
        · exact Or.inl h0
        · exact Or.inr ⟨f, Or.inr hf, rfl⟩
        · exact Or.inr ⟨Feature.node nm md pr cs gp, Or.inl rfl, by simp [Feature.name, hx]⟩
      · rintro (h0 | ⟨f, hf | hf, rfl⟩)
        · exact Or.inl (Or.inl h0)
        · subst hf
          exact Or.inr rfl
        · exact Or.inl (Or.inr ⟨f, hf, rfl⟩)

/-- `featFold_keys` for the child loop. -/
theorem featFoldL_keys :
    ∀ (cs : List Feature) (m0 : List (String × Feature)) (x : String),
      x ∈ (featFoldL cs m0).map Prod.fst ↔
        (x ∈ m0.map Prod.fst ∨ ∃ f ∈ subfeaturesL cs, f.name = x)
  | [], m0, x => by simp [featFoldL, subfeaturesL]
  | c :: cs, m0, x => by
      simp only [featFoldL, subfeaturesL]
      rw [featFoldL_keys cs (featFold c m0) x, featFold_keys c m0 x]
      simp only [List.mem_append]
      constructor
      · rintro ((h0 | ⟨f, hf, rfl⟩) | ⟨f, hf, rfl⟩)
        · exact Or.inl h0
        · exact Or.inr ⟨f, Or.inl hf, rfl⟩
        · exact Or.inr ⟨f, Or.inr hf, rfl⟩
      · rintro (h0 | ⟨f, hf | hf, rfl⟩)
        · exact Or.inl (Or.inl h0)
        · exact Or.inl (Or.inr ⟨f, hf, rfl⟩)
        · exact Or.inr ⟨f, hf, rfl⟩

end

/-- Every key of the features dict is the name of a tree node, hence
registered in the compiled state. -/
theorem keys_registered (m : FModel) :
    ∀ nm ∈ (featuresOf m).map Prod.fst, ∃ v, (nm, v) ∈ (generate m).varMap := by
  intro nm hnm
  have h := (featFold_keys m.root [] nm).mp (by simpa [featuresOf] using hnm)
  rcases h with h0 | ⟨f, hf, rfl⟩
  · simp at h0
  · exact ((generate_facts m).2 f hf).1

/-- Every tree node's name is a key of the features dict. -/
theorem subfeature_key (m : FModel) {f : Feature} (hf : f ∈ subfeatures m.root) :
    f.name ∈ (featuresOf m).map Prod.fst := by
  unfold featuresOf
  exact (featFold_keys m.root [] f.name).mpr (Or.inr ⟨f, hf, rfl⟩)

/-- Specification of the unit-clause pass of `validate_selection` when all
names are registered: the state is unchanged and the units are exactly one
signed unit clause per name. -/
theorem unitsFor_spec :
    ∀ (names : List String) (sel : Finset String) (s : CompState),
      StInv s → (∀ nm ∈ names, ∃ v, (nm, v) ∈ s.varMap) →
      (unitsFor names sel s).2 = s ∧
      (∀ u ∈ (unitsFor names sel s).1, ∃ nm v, nm ∈ names ∧ (nm, v) ∈ s.varMap ∧
        u = (if nm ∈ sel then [(v : Int)] else [-(v : Int)])) ∧
      (∀ nm ∈ names, ∀ v, (nm, v) ∈ s.varMap →
        (if nm ∈ sel then [(v : Int)] else [-(v : Int)]) ∈ (unitsFor names sel s).1) := by
  intro names
  induction names with
  | nil =>
      intro sel s h _
      refine ⟨rfl, ?_, ?_⟩
      · intro u hu
        simp [unitsFor] at hu
      · intro nm hnm
        simp at hnm
  | cons nm rest ih =>
      intro sel s h hreg
      obtain ⟨v, hv⟩ := hreg nm (List.mem_cons_self nm rest)
      have hget := getVar_registered h hv
      have hrest := ih sel s h (fun x hx => hreg x (List.mem_cons_of_mem nm hx))
      simp only [unitsFor, hget]
      refine ⟨hrest.1, ?_, ?_⟩
      · intro u hu
        rcases List.mem_cons.mp hu with rfl | hu'
        · exact ⟨nm, v, List.mem_cons_self nm rest, hv, rfl⟩
        · obtain ⟨nm', v', hn', hv', hu'⟩ := hrest.2.1 u hu'
          exact ⟨nm', v', List.mem_cons_of_mem nm hn', hv', hu'⟩
      · intro nm' hnm' v' hv'
        rcases List.mem_cons.mp hnm' with rfl | hnm''
        · have := key_unique h hv' hv
          subst this
          exact List.mem_cons_self _ _
        · exact List.mem_cons_of_mem _ (hrest.2.2 nm' hnm'' v' hv')

theorem litSatB_pos (l : List Bool) {v : Nat} (hv : 1 ≤ v) :
    litSatB l ((v : Nat) : Int) = l.getD (v - 1) false := by
  unfold litSatB
  have h0 : (0 : Int) < (v : Int) := by omega
  rw [if_pos h0]
  have hv' : ((v : Int)).natAbs = v := by omega
  rw [hv']

theorem self_mem_subfeatures (t : Feature) : t ∈ subfeatures t := by
  cases t
  simp [subfeatures]

/-- `validate_selection` answers true exactly when the compiled clauses
plus the per-feature unit clauses are satisfiable. -/
theorem validate_isValid_iff (m : FModel) (sel : Finset String) :
    (validateSelection m sel).1 = true ↔
      SatCnf ((generate m).clauses ++
        (unitsFor ((featuresOf m).map Prod.fst) sel (generate m)).1) := by
  obtain ⟨hI, hfacts⟩ := generate_facts m
  have hreg := keys_registered m
  obtain ⟨hstate, hchar, hmem⟩ :=
    unitsFor_spec ((featuresOf m).map Prod.fst) sel (generate m) hI hreg
  unfold validateSelection
  dsimp only
  rw [hstate]
  rw [Option.isSome_iff_exists]
  apply solveAll_isSome_iff
  intro cl hcl lit hlit
  have hnv := nextVar_pos hI
  rcases List.mem_append.mp hcl with hL | hR
  · have := hI.2.2.2 cl hL lit hlit
    omega
  · obtain ⟨nm, v, hn, hv, rfl⟩ := hchar cl hR
    have hb := var_bound_of_mem hI hv
    by_cases hsel : nm ∈ sel
    · rw [if_pos hsel] at hlit
      have : lit = (v : Int) := by simpa using hlit
      subst this
      omega
    · rw [if_neg hsel] at hlit
      have : lit = -(v : Int) := by simpa using hlit
      subst this
      omega

theorem validate_result_true {m : FModel} {sel : Finset String}
    (h : (validateSelection m sel).1 = true) :
    validateSelection m sel = (true, []) := by
  unfold validateSelection at h ⊢
  dsimp only at h ⊢
  rw [h]
  simp

theorem validate_result_false {m : FModel} {sel : Finset String}
    (h : (validateSelection m sel).1 = false) :
    validateSelection m sel = (false, violationMessages m sel) := by
  unfold validateSelection at h ⊢
  dsimp only at h ⊢
  rw [h]
  simp

/-- Any true-name set of a bounded assignment satisfying the compiled
clauses validates: the same assignment satisfies the unit clauses. -/
theorem validate_of_assignment (m : FModel) {l : List Bool}
    (hsat : cnfSatB l (generate m).clauses = true) :
    validateSelection m (trueNames (generate m) ((generate m).nextVar - 1) l) =
      (true, []) := by
  obtain ⟨hI, _⟩ := generate_facts m
  have hreg := keys_registered m
  obtain ⟨hstate, hchar, hmem⟩ :=
    unitsFor_spec ((featuresOf m).map Prod.fst)
      (trueNames (generate m) ((generate m).nextVar - 1) l) (generate m) hI hreg
  have hnv := nextVar_pos hI
  have hsatS : cnfSat (fromBits l) (generate m).clauses := (cnfSatB_iff _ _).mp hsat
  have hunits : cnfSat (fromBits l)
      (unitsFor ((featuresOf m).map Prod.fst)
        (trueNames (generate m) ((generate m).nextVar - 1) l) (generate m)).1 := by
    intro u hu
    obtain ⟨nm, v, hn, hv, rfl⟩ := hchar u hu
    have hb := var_bound_of_mem hI hv
    by_cases hsel : nm ∈ trueNames (generate m) ((generate m).nextVar - 1) l
    · rw [if_pos hsel]
      refine ⟨(v : Int), by simp, ?_⟩
      rw [litSat_pos _ hb.1]
      exact ((mem_trueNames_var hI hv).mp hsel).2
    · rw [if_neg hsel]
      refine ⟨-(v : Int), by simp, ?_⟩
      rw [litSat_neg _ hb.1]
      rw [mem_trueNames_var hI hv] at hsel
      push_neg at hsel
      have hgd := hsel (by omega)
      simp only [fromBits]
      exact Bool.eq_false_iff.mpr hgd
  have hS : SatCnf ((generate m).clauses ++
      (unitsFor ((featuresOf m).map Prod.fst)
        (trueNames (generate m) ((generate m).nextVar - 1) l) (generate m)).1) :=
    ⟨fromBits l, cnfSat_append.mpr ⟨hsatS, hunits⟩⟩
  exact validate_result_true ((validate_isValid_iff m _).mpr hS)

/-- A selection that misses the root name is rejected by the validator. -/
theorem validate_no_root (m : FModel) (hroot : m.root.parent = none)
    (sel : Finset String) (hsel : m.root.name ∉ sel) :
    (validateSelection m sel).1 = false := by
  obtain ⟨hI, hfacts⟩ := generate_facts m
  have hreg := keys_registered m
  obtain ⟨hstate, hchar, hmem⟩ :=
    unitsFor_spec ((featuresOf m).map Prod.fst) sel (generate m) hI hreg
  obtain ⟨rv, hrv, hrcl⟩ := (hfacts m.root (self_mem_subfeatures m.root)).2.1 (by rw [hroot]; rfl)
  have hb := var_bound_of_mem hI hrv
  cases hval : (validateSelection m sel).1 with
  | false => rfl
  | true =>
      exfalso
      obtain ⟨a, ha⟩ := (validate_isValid_iff m sel).mp hval
      rw [cnfSat_append] at ha
      have htrue : a rv = true := by
        obtain ⟨lit, hlit, hls⟩ := ha.1 _ hrcl
        have : lit = (rv : Int) := by simpa using hlit
        subst this
        exact (litSat_pos a hb.1).mp hls
      have hfalse : a rv = false := by
        have hunit := hmem m.root.name (subfeature_key m (self_mem_subfeatures m.root)) rv hrv
        rw [if_neg hsel] at hunit
        obtain ⟨lit, hlit, hls⟩ := ha.2 _ hunit
        have : lit = -(rv : Int) := by simpa using hlit
        subst this
        exact (litSat_neg a hb.1).mp hls
      rw [htrue] at hfalse
      cases hfalse

/-- Every product the enumerator returns contains the root name. -/
theorem findMwps_root (m : FModel) (hroot : m.root.parent = none)
    {out : List (Finset String)} (h : findMwps m = some out) :
    ∀ mwp ∈ out, m.root.name ∈ mwp := by
  intro mwp hm
  obtain ⟨l, hlen, hsat, rfl⟩ := findMwps_mem h mwp hm
  obtain ⟨hI, hfacts⟩ := generate_facts m
  obtain ⟨v, hv, hcl⟩ := (hfacts m.root (self_mem_subfeatures m.root)).2.1 (by rw [hroot]; rfl)
  have hb := var_bound_of_mem hI hv
  have hnv := nextVar_pos hI
  rw [mem_trueNames_var hI hv]
  refine ⟨by omega, ?_⟩
  have hclB : clSatB l [(v : Int)] = true := by
    rw [cnfSatB, List.all_eq_true] at hsat
    exact hsat _ hcl
  rw [clSatB, List.any_eq_true] at hclB
  obtain ⟨lit, hlit, hls⟩ := hclB
  have : lit = (v : Int) := by simpa using hlit
  subst this
  rw [litSatB_pos l hb.1] at hls
  exact hls

mutual

/-- The diagnostic walk only appends: accumulated messages survive. -/
theorem checkFeature_mono :
    ∀ (t : Feature) (sel : Finset String) (msgs : List String) (x : String),
      x ∈ msgs → x ∈ checkFeature sel t msgs
  | .node nm md pr cs gp, sel, msgs, x, hx => by
      simp only [checkFeature]
      apply checkFeatureL_mono
      split_ifs <;> simp [hx]

/-- `checkFeature_mono` for the child loop. -/
theorem checkFeatureL_mono :
    ∀ (cs : List Feature) (sel : Finset String) (msgs : List String) (x : String),
      x ∈ msgs → x ∈ checkFeatureL sel cs msgs
  | [], sel, msgs, x, hx => by simpa [checkFeatureL] using hx
  | c :: cs, sel, msgs, x, hx => by
      simp only [checkFeatureL]
      exact checkFeatureL_mono cs sel _ x (checkFeature_mono c sel msgs x hx)

end

mutual

/-- The walk reports every mandatory feature whose parent is selected but
which itself is not. -/
theorem checkFeature_missing :
    ∀ (t : Feature) (sel : Finset String) (msgs : List String) (f : Feature),
      f ∈ subfeatures t → f.mandatory = true → ∀ pn, f.parent = some pn →
      pn ∈ sel → f.name ∉ sel →
      ("Missing mandatory feature: " ++ f.name) ∈ checkFeature sel t msgs
  | .node nm md pr cs gp, sel, msgs, f, hf, hmd, pn, hpn, hpsel, hnsel => by
      simp only [subfeatures, List.mem_cons] at hf
      rcases hf with rfl | hf'
      · simp only [Feature.mandatory] at hmd
        simp only [Feature.parent] at hpn
        simp only [Feature.name] at hnsel ⊢
        subst hmd
        subst hpn
        simp only [checkFeature]
        apply checkFeatureL_mono
        split_ifs <;> simp_all
      · simp only [checkFeature]
        exact checkFeatureL_missing cs sel _ f hf' hmd pn hpn hpsel hnsel

/-- `checkFeature_missing` for the child loop. -/
theorem checkFeatureL_missing :
    ∀ (cs : List Feature) (sel : Finset String) (msgs : List String) (f : Feature),
      f ∈ subfeaturesL cs → f.mandatory = true → ∀ pn, f.parent = some pn →
      pn ∈ sel → f.name ∉ sel →
      ("Missing mandatory feature: " ++ f.name) ∈ checkFeatureL sel cs msgs
  | [], sel, msgs, f, hf, hmd, pn, hpn, hpsel, hnsel => by
      simp [subfeaturesL] at hf
  | c :: cs, sel, msgs, f, hf, hmd, pn, hpn, hpsel, hnsel => by
      simp only [subfeaturesL, List.mem_append] at hf
      simp only [checkFeatureL]
      rcases hf with hfc | hfcs
      · exact checkFeatureL_mono cs sel _ _
          (checkFeature_missing c sel msgs f hfc hmd pn hpn hpsel hnsel)
      · exact checkFeatureL_missing cs sel _ f hfcs hmd pn hpn hpsel hnsel

end

/-- The missing-mandatory diagnostics reach the validator output. -/
theorem violationMessages_missing (m : FModel) (sel : Finset String) (f : Feature)
    (hf : f ∈ subfeatures m.root) (hmd : f.mandatory = true) (pn : String)
    (hpn : f.parent = some pn) (hpsel : pn ∈ sel) (hnsel : f.name ∉ sel) :
    ("Missing mandatory feature: " ++ f.name) ∈ violationMessages m sel := by
  unfold violationMessages
  dsimp only
  exact List.mem_append_left _
    (checkFeature_missing m.root sel [] f hf hmd pn hpn hpsel hnsel)

/-- C1 (amended): for every mandatory feature whose parent has a nonempty
name, the parent/child step emits exactly the biconditional pair of
clauses, both are in the compiled clause set, and the clause set entails
f ⟺ p: fixing p true with f false is unsatisfiable, and fixing f true
with p false is unsatisfiable.  The nonemptiness hypothesis is forced by
the code's truthiness test: a parent named "" is treated as no parent
(see the counterexample). -/
theorem C1_mandatory_biconditional (m : FModel) (f : Feature)
    (hf : f ∈ subfeatures m.root) (hmd : f.mandatory = true)
    (pn : String) (hpn : f.parent = some pn) (hne : pn ≠ "") :
    edgeClauses f.mandatory (varIdx (generate m) pn) (varIdx (generate m) f.name) =
      [[-(varIdx (generate m) pn : Int), (varIdx (generate m) f.name : Int)],
       [-(varIdx (generate m) f.name : Int), (varIdx (generate m) pn : Int)]] ∧
    [-(varIdx (generate m) pn : Int), (varIdx (generate m) f.name : Int)] ∈
      (generate m).clauses ∧
    [-(varIdx (generate m) f.name : Int), (varIdx (generate m) pn : Int)] ∈
      (generate m).clauses ∧
    ¬ SatCnf ((generate m).clauses ++
      [[(varIdx (generate m) pn : Int)], [-(varIdx (generate m) f.name : Int)]]) ∧
    ¬ SatCnf ((generate m).clauses ++
      [[(varIdx (generate m) f.name : Int)], [-(varIdx (generate m) pn : Int)]]) := by
  obtain ⟨hI, hfacts⟩ := generate_facts m
  obtain ⟨pv, fv, hpv, hfv, hcls⟩ := (hfacts f hf).2.2.1 pn hpn hne
  have hpe : varIdx (generate m) pn = pv := varIdx_of_mem hI hpv
  have hfe : varIdx (generate m) f.name = fv := varIdx_of_mem hI hfv
  have hbp := var_bound_of_mem hI hpv
  have hbf := var_bound_of_mem hI hfv
  rw [hpe, hfe, hmd]
  have hm1 : [-(pv : Int), (fv : Int)] ∈ (generate m).clauses := by
    apply hcls
    rw [hmd]
    simp [edgeClauses]
  have hm2 : [-(fv : Int), (pv : Int)] ∈ (generate m).clauses := by
    apply hcls
    rw [hmd]
    simp [edgeClauses]
  refine ⟨by simp [edgeClauses], hm1, hm2, ?_, ?_⟩
  · rintro ⟨a, ha⟩
    rw [cnfSat_append] at ha
    have hp : a pv = true := by
      obtain ⟨lit, hlit, hls⟩ := ha.2 [(pv : Int)] (by simp)
      have : lit = (pv : Int) := by simpa using hlit
      subst this
      exact (litSat_pos a hbp.1).mp hls
    have hfx : a fv = false := by
      obtain ⟨lit, hlit, hls⟩ := ha.2 [-(fv : Int)] (by simp)
      have : lit = -(fv : Int) := by simpa using hlit
      subst this
      exact (litSat_neg a hbf.1).mp hls
    obtain ⟨lit, hlit, hls⟩ := ha.1 _ hm1
    rcases List.mem_cons.mp hlit with rfl | hlit'
    · rw [(litSat_neg a hbp.1).mp hls] at hp
      cases hp
    · have : lit = (fv : Int) := by simpa using hlit'
      subst this
      rw [(litSat_pos a hbf.1).mp hls] at hfx
      cases hfx
  · rintro ⟨a, ha⟩
    rw [cnfSat_append] at ha
    have hfx : a fv = true := by
      obtain ⟨lit, hlit, hls⟩ := ha.2 [(fv : Int)] (by simp)
      have : lit = (fv : Int) := by simpa using hlit
      subst this
      exact (litSat_pos a hbf.1).mp hls
    have hp : a pv = false := by
      obtain ⟨lit, hlit, hls⟩ := ha.2 [-(pv : Int)] (by simp)
      have : lit = -(pv : Int) := by simpa using hlit
      subst this
      exact (litSat_neg a hbp.1).mp hls
    obtain ⟨lit, hlit, hls⟩ := ha.1 _ hm2
    rcases List.mem_cons.mp hlit with rfl | hlit'
    · rw [(litSat_neg a hbf.1).mp hls] at hfx
      cases hfx
    · have : lit = (pv : Int) := by simpa using hlit'
      subst this
      rw [(litSat_pos a hbp.1).mp hls] at hp
      cases hp

/-- Counterexample to C1 as stated: in the corner model, f is a mandatory
non-root feature with parent "" (the node named ""), yet the program's
truthiness test emits f's unit clause instead of the biconditional: the
clause [-f, +p] is absent and fixing f true with p false is satisfiable,
so f ⟺ p is not entailed. -/
theorem C1_counterexample :
    featF ∈ subfeatures cornerModel.root ∧
    featF.mandatory = true ∧
    featF.parent = some "" ∧
    [-(varIdx (generate cornerModel) "f" : Int),
     (varIdx (generate cornerModel) "" : Int)] ∉ (generate cornerModel).clauses ∧
    SatCnf ((generate cornerModel).clauses ++
      [[(varIdx (generate cornerModel) "f" : Int)],
       [-(varIdx (generate cornerModel) "" : Int)]]) := by
  refine ⟨?_, rfl, rfl, by decide, ⟨fun v => decide (v = 1 ∨ v = 3), by decide⟩⟩
  simp [cornerModel, featRootE, featEmpty, featF, subfeatures, subfeaturesL]

/-- Witness for C1 on the §8 example tree: A is a mandatory child of
root. -/
theorem C1_mandatory_biconditional_witness :
    ¬ SatCnf ((generate exampleModel).clauses ++
      [[(varIdx (generate exampleModel) "root" : Int)],
       [-(varIdx (generate exampleModel) "A" : Int)]]) := by
  have hf : featA ∈ subfeatures exampleModel.root := by
    simp [exampleModel, featRoot, featA, subfeatures, subfeaturesL]
  have h := C1_mandatory_biconditional exampleModel featA hf rfl "root" rfl (by decide)
  exact h.2.2.2.1

/-- C2 (amended): for every XOR group the compiler emits the conditional
at-least-one clause and the unconditional pairwise exclusions, and fixing
the group and any two children true is unsatisfiable; fixing the group and
exactly one child true is satisfiable in the §8 example tree (it is not
satisfiable in every model, see the counterexample). -/
theorem C2_xor_encoding :
    (∀ (m : FModel) (g : Feature), g ∈ subfeatures m.root → g.group = some "XOR" →
      ((-(varIdx (generate m) g.name : Int)) ::
          g.children.map (fun c => (varIdx (generate m) c.name : Int))) ∈
        (generate m).clauses ∧
      ∀ q ∈ pairsOf (g.children.map Feature.name),
        [-(varIdx (generate m) q.1 : Int), -(varIdx (generate m) q.2 : Int)] ∈
          (generate m).clauses ∧
        ¬ SatCnf ((generate m).clauses ++
          [[(varIdx (generate m) g.name : Int)], [(varIdx (generate m) q.1 : Int)],
           [(varIdx (generate m) q.2 : Int)]])) ∧
    SatCnf ((generate exampleModel).clauses ++
      [[(varIdx (generate exampleModel) "A" : Int)],
       [(varIdx (generate exampleModel) "B" : Int)],
       [-(varIdx (generate exampleModel) "C" : Int)]]) := by
  constructor
  · intro m g hg hgp
    obtain ⟨hI, hfacts⟩ := generate_facts m
    obtain ⟨gv, cvs, hgv, hclause, hcvs, hpairs⟩ := (hfacts g hg).2.2.2 hgp
    have hge : varIdx (generate m) g.name = gv := varIdx_of_mem hI hgv
    have hbg := var_bound_of_mem hI hgv
    constructor
    · rw [hge]
      have hce := hcvs (generate m) (stExt_refl _) hI
      rw [hce] at hclause
      rw [List.map_map] at hclause
      exact hclause
    · intro q hq
      obtain ⟨v1, v2, m1, m2, mc⟩ := hpairs q hq
      have he1 : varIdx (generate m) q.1 = v1 := varIdx_of_mem hI m1
      have he2 : varIdx (generate m) q.2 = v2 := varIdx_of_mem hI m2
      have hb1 := var_bound_of_mem hI m1
      have hb2 := var_bound_of_mem hI m2
      rw [he1, he2, hge]
      refine ⟨mc, ?_⟩
      rintro ⟨a, ha⟩
      rw [cnfSat_append] at ha
      have h1 : a v1 = true := by
        obtain ⟨lit, hlit, hls⟩ := ha.2 [(v1 : Int)] (by simp)
        have : lit = (v1 : Int) := by simpa using hlit
        subst this
        exact (litSat_pos a hb1.1).mp hls
      have h2 : a v2 = true := by
        obtain ⟨lit, hlit, hls⟩ := ha.2 [(v2 : Int)] (by simp)
        have : lit = (v2 : Int) := by simpa using hlit
        subst this
        exact (litSat_pos a hb2.1).mp hls
      obtain ⟨lit, hlit, hls⟩ := ha.1 _ mc
      rcases List.mem_cons.mp hlit with rfl | hlit'
      · rw [(litSat_neg a hb1.1).mp hls] at h1
        cases h1
      · have : lit = -(v2 : Int) := by simpa using hlit'
        subst this
        rw [(litSat_neg a hb2.1).mp hls] at h2
        cases h2
  · refine ⟨fun v => decide (v = 1 ∨ v = 2 ∨ v = 3), ?_⟩
    decide

/-- Counterexample to C2 as stated: in the model whose root is an XOR
group over two mandatory children, fixing the group and exactly one child
true is unsatisfiable (the other child is forced by its mandatory
biconditional). -/
theorem C2_counterexample :
    ¬ SatCnf ((generate xorTwoModel).clauses ++
      [[(varIdx (generate xorTwoModel) "r" : Int)],
       [(varIdx (generate xorTwoModel) "x" : Int)],
       [-(varIdx (generate xorTwoModel) "y" : Int)]]) := by
  have e1 : varIdx (generate xorTwoModel) "r" = 1 := rfl
  have e2 : varIdx (generate xorTwoModel) "x" = 2 := rfl
  have e3 : varIdx (generate xorTwoModel) "y" = 3 := rfl
  rw [e1, e2, e3]
  rintro ⟨a, ha⟩
  rw [cnfSat_append] at ha
  have h1 : a 1 = true := by
    obtain ⟨lit, hlit, hls⟩ := ha.2 [((1 : Nat) : Int)] (by simp)
    have : lit = ((1 : Nat) : Int) := by simpa using hlit
    subst this
    exact (litSat_pos a (by omega)).mp hls
  have h3 : a 3 = false := by
    obtain ⟨lit, hlit, hls⟩ := ha.2 [-((3 : Nat) : Int)] (by simp)
    have : lit = -((3 : Nat) : Int) := by simpa using hlit
    subst this
    exact (litSat_neg a (by omega)).mp hls
  have hm : [-((1 : Nat) : Int), ((3 : Nat) : Int)] ∈ (generate xorTwoModel).clauses := by
    have : (generate xorTwoModel).clauses =
        [[1], [-1, 2, 3], [-2, -3], [-1, 2], [-2, 1], [-1, 3], [-3, 1]] := rfl
    rw [this]
    simp
  obtain ⟨lit, hlit, hls⟩ := ha.1 _ hm
  rcases List.mem_cons.mp hlit with rfl | hlit'
  · rw [(litSat_neg a (by omega)).mp hls] at h1
    cases h1
  · have : lit = ((3 : Nat) : Int) := by simpa using hlit'
    subst this
    rw [(litSat_pos a (by omega)).mp hls] at h3
    cases h3

/-- Witness for C2 on the §8 example tree: the XOR group A over B and C. -/
theorem C2_xor_encoding_witness :
    ((-(varIdx (generate exampleModel) "A" : Int)) ::
        [featB, featC].map (fun c => (varIdx (generate exampleModel) c.name : Int))) ∈
      (generate exampleModel).clauses ∧
    ¬ SatCnf ((generate exampleModel).clauses ++
      [[(varIdx (generate exampleModel) "A" : Int)],
       [(varIdx (generate exampleModel) "B" : Int)],
       [(varIdx (generate exampleModel) "C" : Int)]]) := by
  have hg : featA ∈ subfeatures exampleModel.root := by
    simp [exampleModel, featRoot, featA, subfeatures, subfeaturesL]
  have h := C2_xor_encoding.1 exampleModel featA hg rfl
  have hq : (("B", "C") : String × String) ∈ pairsOf ([featB, featC].map Feature.name) := by
    simp [pairsOf, featB, featC, Feature.name]
  exact ⟨h.1, (h.2 ("B", "C") hq).2⟩

/-- C3 (amended): the blocking clause is the set of negations of the
variables the assignment makes true; it eliminates the found assignment,
and it eliminates precisely the assignments whose true-set contains the
found one's — not only that single assignment. -/
theorem C3_blocking_clause (n : Nat) (l : List Bool) :
    (∀ lit, lit ∈ blockOf n l ↔
      ∃ i, i < n ∧ l.getD i false = true ∧ lit = -((i + 1 : Nat) : Int)) ∧
    clSatB l (blockOf n l) = false ∧
    (∀ l' : List Bool, clSatB l' (blockOf n l) = false ↔
      ∀ i, i < n → l.getD i false = true → l'.getD i false = true) := by
  refine ⟨fun lit => mem_blockOf, clSatB_blockOf_self n l, ?_⟩
  intro l'
  constructor
  · intro h i hi hgd
    rw [clSatB, List.any_eq_false] at h
    have := h _ (mem_blockOf.mpr ⟨i, hi, hgd, rfl⟩)
    rw [litSatB_negSucc] at this
    simpa using this
  · intro h
    rw [clSatB, List.any_eq_false]
    intro lit hlit
    obtain ⟨i, hi, hgd, rfl⟩ := mem_blockOf.mp hlit
    rw [litSatB_negSucc, h i hi hgd]
    simp

/-- Counterexample to C3 as stated: over the two variables of the
assignment true/false (true-set {1}), the blocking clause [-1] also
eliminates the differing full assignment true/true, so not every differing
assignment remains admissible. -/
theorem C3_counterexample :
    ¬ (∀ l' : List Bool, l'.length = 2 → l' ≠ [true, false] →
        clSatB l' (blockOf 2 [true, false]) = true) := by
  intro h
  have := h [true, true] (by decide) (by decide)
  exact absurd this (by decide)

/-- C4: the MVP solve/block enumeration terminates for every feature
model: the loop run on the compiled clause set returns within the finite
fuel bound. -/
theorem C4_enumeration_terminates (m : FModel) : ∃ out, findMwps m = some out :=
  findMwps_total m

/-- C5: the minimality filter keeps exactly the candidates no other
candidate is a strict subset of; on the spec's concrete pair only the
smaller survives. -/
theorem C5_minimality_filter :
    (∀ (mwps : List (Finset String)) (mwp : Finset String),
      mwp ∈ filterMinimalMwps mwps ↔
        (mwp ∈ mwps ∧ ∀ other ∈ mwps, ¬ other ⊂ mwp)) ∧
    filterMinimalMwps
        [({"root", "A", "B"} : Finset String), {"root", "A", "B", "C"}] =
      [{"root", "A", "B"}] := by
  constructor
  · intro mwps mwp
    unfold filterMinimalMwps
    rw [List.mem_filter]
    constructor
    · rintro ⟨hmem, hq⟩
      refine ⟨hmem, ?_⟩
      intro other hother hss
      rw [Bool.not_eq_true', List.any_eq_false] at hq
      have hthis := hq other hother
      simp only [decide_eq_true_eq] at hthis
      exact hthis ⟨(Finset.ssubset_iff_subset_ne.mp hss).2,
        (Finset.ssubset_iff_subset_ne.mp hss).1⟩
    · rintro ⟨hmem, hmin⟩
      refine ⟨hmem, ?_⟩
      rw [Bool.not_eq_true', List.any_eq_false]
      intro other hother
      simp only [decide_eq_true_eq]
      rintro ⟨hne, hsub⟩
      exact hmin other hother (Finset.ssubset_iff_subset_ne.mpr ⟨hsub, hne⟩)
  · decide

/-- C6: the validator answers valid with no diagnostics exactly when the
compiled clauses plus the per-feature unit clauses are satisfiable; when
they are not, it answers invalid and reports every mandatory feature whose
parent is selected but which is not; in particular selecting only the root
of the example tree is invalid with the missing-A message. -/
theorem C6_validator (m : FModel) (sel : Finset String) :
    (((validateSelection m sel).1 = true ∧ (validateSelection m sel).2 = []) ↔
      SatCnf ((generate m).clauses ++
        (unitsFor ((featuresOf m).map Prod.fst) sel (generate m)).1)) ∧
    (¬ SatCnf ((generate m).clauses ++
        (unitsFor ((featuresOf m).map Prod.fst) sel (generate m)).1) →
      (validateSelection m sel).1 = false ∧
      ∀ f ∈ subfeatures m.root, f.mandatory = true → ∀ pn, f.parent = some pn →
        pn ∈ sel → f.name ∉ sel →
        ("Missing mandatory feature: " ++ f.name) ∈ (validateSelection m sel).2) ∧
    ((validateSelection exampleModel {"root"}).1 = false ∧
      "Missing mandatory feature: A" ∈ (validateSelection exampleModel {"root"}).2) := by
  refine ⟨⟨?_, ?_⟩, ?_, by decide⟩
  · rintro ⟨h1, _⟩
    exact (validate_isValid_iff m sel).mp h1
  · intro hS
    have h1 := (validate_isValid_iff m sel).mpr hS
    have h2 := validate_result_true h1
    rw [h2]
    exact ⟨rfl, rfl⟩
  · intro hS
    have h1 : (validateSelection m sel).1 = false := by
      cases hval : (validateSelection m sel).1
      · rfl
      · exact absurd ((validate_isValid_iff m sel).mp hval) hS
    refine ⟨h1, ?_⟩
    intro f hf hmd pn hpn hpsel hnsel
    rw [validate_result_false h1]
    exact violationMessages_missing m sel f hf hmd pn hpn hpsel hnsel

/-- C7: every minimal valid product the enumerator returns validates with
no diagnostics. -/
theorem C7_enumerator_validator_agreement (m : FModel) (out : List (Finset String))
    (h : findMwps m = some out) :
    ∀ mwp ∈ out, validateSelection m mwp = (true, []) := by
  intro mwp hm
  obtain ⟨l, hlen, hsat, rfl⟩ := findMwps_mem h mwp hm
  exact validate_of_assignment m hsat

/-- Witness for C7 on the §8 example tree. -/
theorem C7_enumerator_validator_agreement_witness :
    validateSelection exampleModel ({"root", "A", "C"} : Finset String) = (true, []) := by
  have hfind : findMwps exampleModel =
      some [({"root", "A", "C"} : Finset String), {"root", "A", "B"}] := by
    decide
  exact C7_enumerator_validator_agreement exampleModel _ hfind _ (by simp)

/-- C8 (amended): tree parsing fails with a raised error naming the cause
on a missing name attribute and on a document without a feature element;
two features with the same name are accepted without error (the later
overwrites the earlier in the features dict); and on failure features
already parsed remain in the dict (only the constraint list is untouched,
since it is built after the tree). -/
theorem C8_parse_errors :
    parseXml xmlNoName [] [⟨"c", "excludes"⟩] =
      (Except.error "KeyError: name", [], [⟨"c", "excludes"⟩]) ∧
    (parseXml xmlNoFeature [] []).1 =
      Except.error "AttributeError: NoneType object has no attribute attrib" ∧
    (parseXml xmlDup [] []).1 =
      Except.ok (Feature.node "r" false none
        [Feature.node "A" false (some "r") [] none,
         Feature.node "A" true (some "r") [] none] none) ∧
    (parseXml xmlDup [] []).2.1 =
      [("A", Feature.node "A" true (some "r") [] none),
       ("r", Feature.node "r" false none
         [Feature.node "A" false (some "r") [] none,
          Feature.node "A" true (some "r") [] none] none)] ∧
    (parseXml xmlPartial [] [⟨"c", "excludes"⟩]).1 = Except.error "KeyError: name" ∧
    (parseXml xmlPartial [] [⟨"c", "excludes"⟩]).2.1 =
      [("A", Feature.node "A" false (some "r") [] none)] ∧
    (parseXml xmlPartial [] [⟨"c", "excludes"⟩]).2.2 = [⟨"c", "excludes"⟩] :=
  ⟨rfl, rfl, rfl, rfl, rfl, rfl, rfl⟩

/-- Counterexample to C8 as stated: a document with two features of the
same name parses without any error, so parsing does not fail on duplicate
names. -/
theorem C8_counterexample :
    (parseXml xmlDup [] []).1 =
      Except.ok (Feature.node "r" false none
        [Feature.node "A" false (some "r") [] none,
         Feature.node "A" true (some "r") [] none] none) := rfl

/-- A non-matching constraint leaves the compilation state untouched. -/
theorem processConstraint_skip (c : Constraint)
    (h : ¬(c.ctype = "requires" ∧ strContains c.englishStatement "filter" = true))
    (s : CompState) : processConstraint c s = s := by
  unfold processConstraint
  by_cases hr : (c.ctype == "requires") = true
  · have hft : ¬(strContains c.englishStatement "filter" = true) := by
      intro hft
      exact h ⟨by simpa using hr, hft⟩
    simp [hr, hft]
  · simp [hr]

theorem processConstraints_skip (c : Constraint)
    (hskip : ∀ s, processConstraint c s = s) :
    ∀ (cs1 cs2 : List Constraint) (s : CompState),
      processConstraints (cs1 ++ c :: cs2) s = processConstraints (cs1 ++ cs2) s := by
  intro cs1
  induction cs1 with
  | nil =>
      intro cs2 s
      simp only [List.nil_append, processConstraints, hskip s]
  | cons d cs1 ih =>
      intro cs2 s
      simp only [List.cons_append, processConstraints]
      exact ih cs2 _

/-- C9: a cross-tree constraint contributes a clause iff its type is
"requires" and its text contains "filter"; then the contribution is the
single hard-coded clause between ByLocation and Location; any other
constraint leaves the whole compilation result identical to compiling
without it. -/
theorem C9_constraint_filter (m : FModel) (c : Constraint) :
    (¬(c.ctype = "requires" ∧ strContains c.englishStatement "filter" = true) →
      ∀ cs1 cs2 : List Constraint,
        generate ⟨m.root, cs1 ++ c :: cs2⟩ = generate ⟨m.root, cs1 ++ cs2⟩) ∧
    ((c.ctype = "requires" ∧ strContains c.englishStatement "filter" = true) →
      ∀ s : CompState, StInv s →
        ∃ b l, ("ByLocation", b) ∈ (processConstraint c s).varMap ∧
          ("Location", l) ∈ (processConstraint c s).varMap ∧
          (processConstraint c s).clauses = s.clauses ++ [[-(b : Int), (l : Int)]]) := by
  constructor
  · intro hno cs1 cs2
    unfold generate
    exact processConstraints_skip c (processConstraint_skip c hno) cs1 cs2 _
  · rintro ⟨hr, hft⟩ s hI
    unfold processConstraint
    have hr' : (c.ctype == "requires") = true := by simp [hr]
    rw [if_pos hr', if_pos hft]
    dsimp only
    generalize hsR : ({ s with rules := s.rules ++ ["Location → ByLocation"] } :
      CompState) = sR
    have hA : StInv sR ∧ StExt s sR := by
      rw [← hsR]
      exact stInv_rules hI _
    generalize hr1 : getVar "ByLocation" sR = r1
    have spec1 := getVar_spec "ByLocation" sR hA.1
    rw [hr1] at spec1
    obtain ⟨hI1, hE1, hC1, hM1, hLo1, hHi1⟩ := spec1
    generalize hr2 : getVar "Location" r1.2 = r2
    have spec2 := getVar_spec "Location" r1.2 hI1
    rw [hr2] at spec2
    obtain ⟨hI2, hE2, hC2, hM2, hLo2, hHi2⟩ := spec2
    refine ⟨r1.1, r2.1, mem_varMap_ext hE2 hM1, hM2, ?_⟩
    show r2.2.clauses ++ _ = _
    rw [hC2, hC1]
    have : sR.clauses = s.clauses := by rw [← hsR]
    rw [this]

/-- Witness for C9: a non-matching excludes constraint changes nothing; a
matching filter constraint adds exactly the hard-coded clause. -/
theorem C9_constraint_filter_witness :
    generate ⟨featRoot, [⟨"A excludes B", "excludes"⟩]⟩ = generate ⟨featRoot, []⟩ ∧
    ∃ b l, ("ByLocation", b) ∈
        (processConstraint ⟨"filter is required to work", "requires"⟩
          (generate exampleModel)).varMap ∧
      ("Location", l) ∈
        (processConstraint ⟨"filter is required to work", "requires"⟩
          (generate exampleModel)).varMap ∧
      (processConstraint ⟨"filter is required to work", "requires"⟩
          (generate exampleModel)).clauses =
        (generate exampleModel).clauses ++ [[-(b : Int), (l : Int)]] := by
  constructor
  · exact (C9_constraint_filter ⟨featRoot, []⟩ ⟨"A excludes B", "excludes"⟩).1
      (by intro h; exact absurd h.1 (by decide)) [] []
  · exact (C9_constraint_filter exampleModel
      ⟨"filter is required to work", "requires"⟩).2 ⟨rfl, by decide⟩
      (generate exampleModel) (generate_facts exampleModel).1

/-- C10: the compiler emits the root unit clause, every enumerated product
contains the root name, and the validator rejects any selection missing
the root name — in particular the empty selection. -/
theorem C10_root_always_selected (m : FModel) (hroot : m.root.parent = none) :
    [(varIdx (generate m) m.root.name : Int)] ∈ (generate m).clauses ∧
    (∀ out, findMwps m = some out → ∀ mwp ∈ out, m.root.name ∈ mwp) ∧
    (∀ sel : Finset String, m.root.name ∉ sel → (validateSelection m sel).1 = false) ∧
    (validateSelection m (∅ : Finset String)).1 = false := by
  obtain ⟨hI, hfacts⟩ := generate_facts m
  obtain ⟨v, hv, hcl⟩ := (hfacts m.root (self_mem_subfeatures m.root)).2.1 (by rw [hroot]; rfl)
  refine ⟨?_, ?_, ?_, ?_⟩
  · rw [varIdx_of_mem hI hv]
    exact hcl
  · intro out hout
    exact findMwps_root m hroot hout
  · intro sel hsel
    exact validate_no_root m hroot sel hsel
  · exact validate_no_root m hroot ∅ (Finset.not_mem_empty _)

/-- Witness for C10 on the §8 example tree. -/
theorem C10_root_always_selected_witness :
    [(varIdx (generate exampleModel) "root" : Int)] ∈ (generate exampleModel).clauses ∧
    (validateSelection exampleModel (∅ : Finset String)).1 = false := by
  have h := C10_root_always_selected exampleModel rfl
  exact ⟨h.1, h.2.2.2⟩
